import Mathlib

/-!
Verification of the graph-data parser
(`src/execution_model/context_extraction_logic/graph_data_parser.py`).

Strings are shallowly embedded as `List Char`; Python `dict`s as insertion-ordered
association lists; Python regular-expression operations are embedded as explicit
character scans that implement the leftmost-match and greediness behaviour of the
concrete patterns appearing in the source.
-/

set_option maxRecDepth 4000
set_option linter.unusedVariables false

abbrev Str := List Char

def strL (s : String) : Str := s.toList

/-- Python `\s` (ASCII white space, as appearing in the parsed documents). -/
def isWsChar (c : Char) : Bool :=
  c.toNat == 32 || c.toNat == 9 || c.toNat == 10 || c.toNat == 13 || c.toNat == 11 || c.toNat == 12

/-- Python `\d`. -/
def isDigitChar (c : Char) : Bool :=
  48 ≤ c.toNat && c.toNat ≤ 57

/-- The character class `[a-f0-9]` used for hashes throughout the source. -/
def isHexLower (c : Char) : Bool :=
  isDigitChar c || (97 ≤ c.toNat && c.toNat ≤ 102)

/-- Python `\w` (ASCII word characters, as relevant to `\b` in the rewriters). -/
def isWordChar (c : Char) : Bool :=
  isDigitChar c || (97 ≤ c.toNat && c.toNat ≤ 122) || (65 ≤ c.toNat && c.toNat ≤ 90) ||
    c.toNat == 95

/-- Python `str.strip()`. -/
def pyStrip (s : Str) : Str :=
  ((s.dropWhile isWsChar).reverse.dropWhile isWsChar).reverse

/-- Python `str.split('\n')`. -/
def splitNl : Str → List Str
  | [] => [[]]
  | c :: rest =>
    if c = '\n' then [] :: splitNl rest
    else
      match splitNl rest with
      | [] => [[c]]
      | l :: ls => (c :: l) :: ls

/-- `'\n'.join(...)`, and the inverse of line splitting used to reassemble blocks. -/
def joinNl : List Str → Str
  | [] => []
  | [l] => l
  | l :: ls => l ++ '\n' :: joinNl ls

/-- Python `f.readlines()`: split after every newline, keeping the terminators.
The fuel argument of the worker only realizes structural recursion; the initial
fuel `s.length + 1` always suffices, as every step consumes at least one
character. -/
def pyReadLinesGo : Nat → Str → List Str
  | 0, _ => []
  | _, [] => []
  | fuel + 1, c :: rest =>
    match (c :: rest : Str).dropWhile (fun d => d ≠ '\n') with
    | [] => [c :: rest]
    | _ :: tl =>
      ((c :: rest : Str).takeWhile (fun d => d ≠ '\n') ++ ['\n']) :: pyReadLinesGo fuel tl

def pyReadLines (s : Str) : List Str := pyReadLinesGo (s.length + 1) s

/-- Lookup in an insertion-ordered association list (Python `dict` access / `.get`). -/
def lookupA {β : Type} (m : List (Str × β)) (k : Str) : Option β :=
  match m with
  | [] => none
  | (a, b) :: t => if a = k then some b else lookupA t k

/-- Decimal digit character (`"%d" % n` for a single digit). -/
def digitChar (n : Nat) : Char :=
  match n with
  | 0 => '0' | 1 => '1' | 2 => '2' | 3 => '3' | 4 => '4'
  | 5 => '5' | 6 => '6' | 7 => '7' | 8 => '8' | _ => '9'

def digitVal (c : Char) : Nat :=
  match c with
  | '0' => 0 | '1' => 1 | '2' => 2 | '3' => 3 | '4' => 4
  | '5' => 5 | '6' => 6 | '7' => 7 | '8' => 8 | _ => 9

/-- Decimal rendering of a natural number (Python `str(n)` / f-string
interpolation); the fuel only realizes structural recursion. -/
def natToStrGo : Nat → Nat → Str
  | 0, _ => []
  | fuel + 1, n =>
    if n < 10 then [digitChar n]
    else natToStrGo fuel (n / 10) ++ [digitChar (n % 10)]

def natToStr (n : Nat) : Str := natToStrGo (n + 1) n

theorem natToStrGo_mono : ∀ (f1 f2 n : Nat), n < f1 → n < f2 →
    natToStrGo f1 n = natToStrGo f2 n := by
  intro f1
  induction f1 with
  | zero => intro f2 n h1 h2; omega
  | succ f ih =>
    intro f2 n h1 h2
    cases f2 with
    | zero => omega
    | succ f2 =>
      show (if n < 10 then _ else _) = (if n < 10 then _ else _)
      by_cases hn : n < 10
      · simp [hn]
      · have hd : n / 10 < n := Nat.div_lt_self (by omega) (by omega)
        simp only [hn, if_false]
        rw [ih f2 (n / 10) (by omega) (by omega)]

/-- The defining recurrence of `natToStr`. -/
theorem natToStr_eq (n : Nat) :
    natToStr n = if n < 10 then [digitChar n]
      else natToStr (n / 10) ++ [digitChar (n % 10)] := by
  show natToStrGo (n + 1) n = _
  by_cases hn : n < 10
  · simp [natToStrGo, hn]
  · have hd : n / 10 < n := Nat.div_lt_self (by omega) (by omega)
    show (if n < 10 then _ else _) = _
    simp only [hn, if_false]
    rw [natToStrGo_mono n (n / 10 + 1) (n / 10) (by omega) (by omega)]
    rfl

/-- Python `int(s)` on a digit string. -/
def strVal (s : Str) : Nat :=
  s.foldl (fun a c => a * 10 + digitVal c) 0

/-- A canonical identifier: the tag character (`'S'` or `'T'`) followed by the number. -/
def mkId (c : Char) (n : Nat) : Str := c :: natToStr n

theorem digitVal_digitChar {d : Nat} (h : d < 10) : digitVal (digitChar d) = d := by
  interval_cases d <;> rfl

theorem strVal_append (s : Str) (c : Char) :
    strVal (s ++ [c]) = strVal s * 10 + digitVal c := by
  simp [strVal, List.foldl_append]

theorem strVal_natToStr (n : Nat) : strVal (natToStr n) = n := by
  induction n using Nat.strong_induction_on with
  | _ n ih =>
    rw [natToStr_eq]
    split
    · next h =>
      simp [strVal, digitVal_digitChar h]
    · next h =>
      rw [strVal_append, ih (n / 10) (Nat.div_lt_self (by omega) (by omega)),
        digitVal_digitChar (Nat.mod_lt _ (by omega))]
      omega

theorem natToStr_inj {m n : Nat} (h : natToStr m = natToStr n) : m = n := by
  have := strVal_natToStr m
  rw [h, strVal_natToStr] at this
  omega

theorem mkId_inj {c : Char} {m n : Nat} (h : mkId c m = mkId c n) : m = n := by
  simp only [mkId, List.cons.injEq] at h
  exact natToStr_inj h.2

/-- Every character of `natToStr n` is a decimal digit. -/
theorem natToStr_all_digit (n : Nat) : (natToStr n).all isDigitChar = true := by
  induction n using Nat.strong_induction_on with
  | _ n ih =>
    rw [natToStr_eq]
    split
    · next h =>
      simp only [List.all_cons, List.all_nil, Bool.and_true]
      interval_cases n <;> rfl
    · next h =>
      have h1 := ih (n / 10) (Nat.div_lt_self (by omega) (by omega))
      have h2 : ([digitChar (n % 10)] : Str).all isDigitChar = true := by
        have hlt : n % 10 < 10 := Nat.mod_lt _ (by omega)
        simp only [List.all_cons, List.all_nil, Bool.and_true]
        interval_cases hm : n % 10 <;> rfl
      rw [List.all_append, h1, h2]
      rfl

/-- Sequential canonical-to-original map: `S<k> -> h0, S<k+1> -> h1, ...`. -/
def assignFwd (c : Char) : List Str → Nat → List (Str × Str)
  | [], _ => []
  | h :: t, k => (mkId c k, h) :: assignFwd c t (k + 1)

/-- Sequential original-to-canonical map: `h0 -> S<k>, h1 -> S<k+1>, ...`. -/
def assignRev (c : Char) : List Str → Nat → List (Str × Str)
  | [], _ => []
  | h :: t, k => (h, mkId c k) :: assignRev c t (k + 1)

theorem lookupA_assignFwd_shape {c : Char} {l : List Str} {k : Nat} {s h : Str}
    (hl : lookupA (assignFwd c l k) s = some h) :
    h ∈ l ∧ ∃ j, k ≤ j ∧ s = mkId c j := by
  induction l generalizing k with
  | nil => simp [assignFwd, lookupA] at hl
  | cons h0 t ih =>
    simp only [assignFwd, lookupA] at hl
    split at hl
    · next he =>
      cases hl
      exact ⟨List.mem_cons_self _ _, k, le_refl _, he.symm⟩
    · obtain ⟨hm, j, hj, hs⟩ := ih hl
      exact ⟨List.mem_cons_of_mem _ hm, j, by omega, hs⟩

theorem lookupA_assignRev_shape {c : Char} {l : List Str} {k : Nat} {s h : Str}
    (hl : lookupA (assignRev c l k) h = some s) :
    h ∈ l ∧ ∃ j, k ≤ j ∧ s = mkId c j := by
  induction l generalizing k with
  | nil => simp [assignRev, lookupA] at hl
  | cons h0 t ih =>
    simp only [assignRev, lookupA] at hl
    split at hl
    · next he =>
      cases hl
      exact ⟨by simp [he.symm], k, le_refl _, rfl⟩
    · obtain ⟨hm, j, hj, hs⟩ := ih hl
      exact ⟨List.mem_cons_of_mem _ hm, j, by omega, hs⟩

/-- The two sequential maps over a duplicate-free list form one bijection. -/
theorem assign_bijective {c : Char} {l : List Str} (hnd : l.Nodup) (k : Nat) (h s : Str) :
    lookupA (assignRev c l k) h = some s ↔ lookupA (assignFwd c l k) s = some h := by
  induction l generalizing k with
  | nil => simp [assignFwd, assignRev, lookupA]
  | cons h0 t ih =>
    have hnd' : t.Nodup := hnd.of_cons
    have h0nt : h0 ∉ t := by
      intro hmem
      exact (List.nodup_cons.mp hnd).1 hmem
    simp only [assignFwd, assignRev, lookupA]
    by_cases he : h0 = h
    · subst he
      rw [if_pos rfl]
      constructor
      · intro hx
        cases hx
        rw [if_pos rfl]
      · intro hx
        by_cases hs : mkId c k = s
        · subst hs; rfl
        · rw [if_neg hs] at hx
          obtain ⟨hm, _⟩ := lookupA_assignFwd_shape hx
          exact absurd hm h0nt
    · rw [if_neg he]
      by_cases hs : mkId c k = s
      · subst hs
        rw [if_pos rfl]
        constructor
        · intro hx
          obtain ⟨_, j, hj, hsj⟩ := lookupA_assignRev_shape hx
          have := mkId_inj hsj
          omega
        · intro hx
          cases hx
          exact absurd rfl he
      · rw [if_neg hs]
        exact ih hnd' (k + 1)

/-! ## Regex-scan primitives -/

/-- Consume a literal (one regex literal run); `none` if the input does not start with it. -/
def eatLit (lit s : Str) : Option Str :=
  if lit.isPrefixOf s then some (s.drop lit.length) else none

/-- Greedy `\s*`. -/
def eatWs (s : Str) : Str := s.dropWhile isWsChar

/-- Greedy `[a-f0-9]+`: the matched run and the rest; `none` when the run is empty. -/
def eatHex (s : Str) : Option (Str × Str) :=
  let h := s.takeWhile isHexLower
  if h.isEmpty then none else some (h, s.drop h.length)

/-- Greedy `\d+`. -/
def eatDigits (s : Str) : Option (Str × Str) :=
  let h := s.takeWhile isDigitChar
  if h.isEmpty then none else some (h, s.drop h.length)

/-- Match of `States \(\d+\):\n` at the head of `s`, returning the text after it
(the `(.*)` group under `re.DOTALL` is the whole remainder). -/
def matchStatesHeader (s : Str) : Option Str :=
  match eatLit (strL "States (") s with
  | none => none
  | some r1 =>
    match eatDigits r1 with
    | none => none
    | some (_, r2) => eatLit (strL "):\n") r2

/-- `re.search(r'States \(\d+\):\n(.*)', content, re.DOTALL)`: leftmost match. -/
def findStatesTail : Str → Option Str
  | [] => none
  | c :: rest =>
    match matchStatesHeader (c :: rest) with
    | some t => some t
    | none => findStatesTail rest

/-- The stripped States-section text (`states_raw_text`), when the header is present. -/
def statesRaw (content : Str) : Option Str :=
  (findStatesTail content).map pyStrip

/-- A line matching `^[a-f0-9]{64},` (a screen-block boundary in the States section). -/
def isScreenStart (l : Str) : Bool :=
  match l.drop 64 with
  | ',' :: _ => (l.take 64).all isHexLower
  | _ => false

theorem length_dropWhile_le {α : Type} (p : α → Bool) (l : List α) :
    (l.dropWhile p).length ≤ l.length :=
  List.Sublist.length_le (List.dropWhile_sublist _)

/-- Split the States-section lines into logical blocks: each block starts at a
boundary line and runs up to the next one; lines before the first boundary are skipped
(mirrors the `finditer` slicing in the source). -/
def groupBlocksGo : Nat → List Str → List (List Str)
  | 0, _ => []
  | _, [] => []
  | fuel + 1, l :: rest =>
    if isScreenStart l then
      (l :: rest.takeWhile (fun x => !isScreenStart x)) ::
        groupBlocksGo fuel (rest.dropWhile (fun x => !isScreenStart x))
    else groupBlocksGo fuel rest

def groupBlocks (ls : List Str) : List (List Str) := groupBlocksGo (ls.length + 1) ls

/-- The stripped block contents of the States section (empty blocks dropped, as in
`if not block_content: continue`). -/
def stateBlockContents (raw : Str) : List Str :=
  ((groupBlocks (splitNl raw)).map (fun b => pyStrip (joinNl b))).filter
    (fun b => !b.isEmpty)

/-- `re.match(r'^[a-f0-9]{64},\s*([^,]+),', block)` together with the subsequent
hash/name extraction: the hash is the text before the first comma, the name is the
stripped text between the first and second comma; the match requires at least one
character between the two commas, and a second comma to exist. -/
def parseBlockHeader (b : Str) : Option (Str × Str) :=
  match b.drop 64 with
  | ',' :: rest =>
    if (b.take 64).all isHexLower then
      let nm := rest.takeWhile (fun c => c ≠ ',')
      if nm.isEmpty then none
      else
        match rest.drop nm.length with
        | ',' :: _ => some (b.take 64, pyStrip nm)
        | _ => none
    else none
  | _ => none

/-- Step 1 of `_build_screen_id_maps`: ordered first-occurrence hashes of the States
section together with the name table. -/
def statesScan (content : Str) : List Str × List (Str × Str) :=
  match statesRaw content with
  | none => ([], [])
  | some raw =>
    (stateBlockContents raw).foldl
      (fun st b =>
        match parseBlockHeader b with
        | some (h, nm) => if h ∈ st.1 then st else (st.1 ++ [h], st.2 ++ [(h, nm)])
        | none => st)
      ([], [])

/-- Match of `\(s:\s*([a-f0-9]+)\s*,\s*t:\s*([a-f0-9]+)\s*\)` at the head of `s`:
returns source group, target group and the rest after the closing parenthesis.
The character classes involved are pairwise disjoint, so greedy matching here is
deterministic (no observable backtracking). -/
def parseSrcTgt (s : Str) : Option (Str × Str × Str) :=
  match eatLit (strL "(s:") s with
  | none => none
  | some r1 =>
    match eatHex (eatWs r1) with
    | none => none
    | some (src, r2) =>
      match eatWs r2 with
      | ',' :: r3 =>
        match eatLit (strL "t:") (eatWs r3) with
        | none => none
        | some r4 =>
          match eatHex (eatWs r4) with
          | none => none
          | some (tgt, r5) =>
            match eatWs r5 with
            | ')' :: r6 => some (src, tgt, r6)
            | _ => none
      | _ => none

/-- One match of `^[a-f0-9]{64}:\s*\(s:...\s*\):.*` at the head of `s` (a transition
header line as scanned over the whole document in step 2 of `_build_screen_id_maps`);
returns the two screen-hash groups and the rest of the document after the match
(the trailing `.*` consumes up to the next newline). -/
def matchTransLine (s : Str) : Option (Str × Str × Str) :=
  match s.drop 64 with
  | ':' :: rest =>
    if (s.take 64).all isHexLower then
      match parseSrcTgt (eatWs rest) with
      | some (a, b, r) =>
        match r with
        | ':' :: r2 => some (a, b, r2.dropWhile (fun c => c ≠ '\n'))
        | _ => none
      | none => none
    else none
  | _ => none

/-- `re.finditer` scan over the whole document for the transition-header pattern with
`re.MULTILINE`: try the pattern at every line start, and resume after each match.
The guard `hlen` is always true (a match consumes at least the 64-character hash)
and only serves the termination argument. -/
def scanTransGo : Nat → Str → Bool → List (Str × Str)
  | 0, _, _ => []
  | _, [], _ => []
  | fuel + 1, c :: rest, atLS =>
    if atLS then
      match matchTransLine (c :: rest) with
      | some (a, b, rem) =>
        if rem.length < rest.length + 1 then
          (a, b) :: scanTransGo fuel rem false
        else scanTransGo fuel rest (c = '\n')
      | none => scanTransGo fuel rest (c = '\n')
    else scanTransGo fuel rest (c = '\n')

def scanTrans (s : Str) (atLS : Bool) : List (Str × Str) :=
  scanTransGo (s.length + 1) s atLS

/-- All `(source, target)` pairs found by step 2 of `_build_screen_id_maps`. -/
def transPairsOf (content : Str) : List (Str × Str) :=
  scanTrans content true

/-- Append-if-new (first-appearance ordering). -/
def addNew (acc : List Str) (h : Str) : List Str :=
  if h ∈ acc then acc else acc ++ [h]

/-- `all_unique_hashes_in_final_order`: States-section hashes first, then hashes seen
only in transition headers, source before target, in document order. -/
def allUniqueHashes (content : Str) : List Str :=
  (transPairsOf content).foldl (fun acc p => addNew (addNew acc p.1) p.2)
    (statesScan content).1

/-- `_build_screen_id_maps`: canonical-to-original map, original-to-canonical map,
and the hash-to-name table in canonical order. -/
def build_screen_id_maps (content : Str) :
    List (Str × Str) × List (Str × Str) × List (Str × Option Str) :=
  let l := allUniqueHashes content
  (assignFwd 'S' l 1, assignRev 'S' l 1,
    l.map (fun h => (h, lookupA (statesScan content).2 h)))

/-! ## Stable sorting (Python `sorted`) -/

/-- Stable insertion into an ascending list: `a` goes after every element `b`
with `le b a` (equal elements keep their original relative order, as in Python). -/
def insertS {α : Type} (le : α → α → Bool) (a : α) : List α → List α
  | [] => [a]
  | b :: t => if le b a then b :: insertS le a t else a :: b :: t

/-- Stable sort with respect to a boolean total preorder (Python `sorted`). -/
def sortS {α : Type} (le : α → α → Bool) (l : List α) : List α :=
  l.foldl (fun acc a => insertS le a acc) []

/-! ## `get_screens_with_information` -/

/-- Sort key of `get_screens_with_information`: `int` part of a block matching
`^S\d+:`, `float('inf')` (here `none`) otherwise. -/
def blkKey (x : Str) : Option Nat :=
  match x with
  | 'S' :: r =>
    match r.dropWhile isDigitChar with
    | ':' :: _ =>
      if (r.takeWhile isDigitChar).isEmpty then none
      else some (strVal (r.takeWhile isDigitChar))
    | _ => none
  | _ => none

def blkLe (a b : Str) : Bool :=
  match blkKey a, blkKey b with
  | some x, some y => Nat.ble x y
  | some _, none => true
  | none, some _ => false
  | none, none => true

/-- `get_screens_with_information` returns a bare list on its early-return paths and
a 3-tuple on its main path; the two shapes are distinguished here. -/
inductive ScreensRet where
  | bare (xs : List Str)
  | triple (blocks : List Str) (m rm : List (Str × Str))
  deriving DecidableEq

def ScreensRet.isTriple : ScreensRet → Bool
  | .triple _ _ _ => true
  | _ => false

/-- `get_screens_with_information` on the file content (the file exists). -/
def get_screens_with_information (content : Str) : ScreensRet :=
  let l := allUniqueHashes content
  let m := assignFwd 'S' l 1
  let rm := assignRev 'S' l 1
  match statesRaw content with
  | none => ScreensRet.triple [] m rm
  | some raw =>
    if (groupBlocks (splitNl raw)).isEmpty then ScreensRet.bare []
    else
      let out := (stateBlockContents raw).filterMap (fun b =>
        if Nat.ble 64 b.length && (b.take 64).all isHexLower then
          match lookupA rm (b.take 64) with
          | some s => some (s ++ b.drop 64)
          | none => none
        else none)
      ScreensRet.triple (sortS blkLe out) m rm

inductive FileErr where
  | fileNotFound
  deriving DecidableEq

/-- `get_screens_with_information(graph_path)` with the file system modelled as a
partial map from paths to contents. The first statement of the function calls
`_build_screen_id_maps(graph_path)`, whose unguarded `open` raises
`FileNotFoundError` when the file is missing; this call sits *before* the
`try/except FileNotFoundError` block, so the exception propagates to the caller. -/
def get_screens_with_information_fs (fs : Str → Option Str) (path : Str) :
    Except FileErr ScreensRet :=
  match fs path with
  | none => Except.error FileErr.fileNotFound
  | some content => Except.ok (get_screens_with_information content)

/-! ## `get_transitions` -/

/-- `re.search(r'\(s:\s*([a-f0-9]+)\s*,\s*t:\s*([a-f0-9]+)\s*\)', parts[1])`
(leftmost match). -/
def searchSrcTgt : Str → Option (Str × Str)
  | [] => none
  | c :: rest =>
    match parseSrcTgt (c :: rest) with
    | some (a, b, _) => some (a, b)
    | none => searchSrcTgt rest

/-- The per-line well-formedness test of `get_transitions`: the (stripped) line must
match `^[a-f0-9]{64}:` and its tail must contain a parsable `(s:..., t:...)` pair.
Returns `(transition_hash, source_hash, target_hash)`. -/
def lineTransParts (line : Str) : Option (Str × Str × Str) :=
  match line.drop 64 with
  | ':' :: _ =>
    if (line.take 64).all isHexLower then
      let parts0 := line.takeWhile (fun c => c ≠ ':')
      let parts1 := line.drop (parts0.length + 1)
      match searchSrcTgt parts1 with
      | some (a, b) => some (pyStrip parts0, a, b)
      | none => none
    else none
  | _ => none

/-- `re.sub(r'^[a-f0-9]{64}:\s*\(s:...\s*\):', '', line).strip()`: strip the
transition header prefix when it matches at the start, else leave the line as is. -/
def stripTransHeader (line : Str) : Str :=
  match line.drop 64 with
  | ':' :: rest =>
    if (line.take 64).all isHexLower then
      match parseSrcTgt (eatWs rest) with
      | some (_, _, r) =>
        match r with
        | ':' :: r2 => pyStrip r2
        | _ => pyStrip line
      | none => pyStrip line
    else pyStrip line
  | _ => pyStrip line

/-- The simplified line written for one transition record:
`f"{reverse_transition_id_map[transition_hash]}: (s:{...},t:{...}): {remaining}"`
(`trm'` is the reverse transition map after the possible new assignment). -/
def mkNewLine (srm trm' : List (Str × Str)) (line hsh srcH tgtH : Str) : Str :=
  ((lookupA trm' hsh).getD []) ++ strL ": (s:" ++ ((lookupA srm srcH).getD srcH) ++
    strL ",t:" ++ ((lookupA srm tgtH).getD tgtH) ++ strL "): " ++ stripTransHeader line

/-- The line loop of `get_transitions`: state is (inside_transition_block,
transition_id_map, reverse_transition_id_map, transition_counter, accumulated
simplified lines). A line starting with `Transitions` sets the flag; a line starting
with `States` breaks out unconditionally. -/
def transScanLines (srm : List (Str × Str)) :
    List Str → Bool → List (Str × Str) → List (Str × Str) → Nat → List Str →
      List Str × List (Str × Str) × List (Str × Str)
  | [], _, tm, trm, _, acc => (acc, tm, trm)
  | l :: rest, inside, tm, trm, k, acc =>
    if (strL "Transitions").isPrefixOf (pyStrip l) then
      transScanLines srm rest true tm trm k acc
    else if (strL "States").isPrefixOf (pyStrip l) then (acc, tm, trm)
    else if inside then
      match lineTransParts (pyStrip l) with
      | some (hsh, srcH, tgtH) =>
        if (lookupA trm hsh).isSome then
          transScanLines srm rest inside tm trm k
            (acc ++ [mkNewLine srm trm (pyStrip l) hsh srcH tgtH])
        else
          transScanLines srm rest inside (tm ++ [(mkId 'T' k, hsh)])
            (trm ++ [(hsh, mkId 'T' k)]) (k + 1)
            (acc ++ [mkNewLine srm (trm ++ [(hsh, mkId 'T' k)]) (pyStrip l) hsh srcH tgtH])
      | none => transScanLines srm rest inside tm trm k acc
    else transScanLines srm rest inside tm trm k acc

/-- `get_transitions`: simplified transition lines, transition ID maps (canonical to
original and original to canonical), and the screen ID maps. -/
def get_transitions (content : Str) :
    List Str × List (Str × Str) × List (Str × Str) × List (Str × Str) ×
      List (Str × Str) :=
  let l := allUniqueHashes content
  let sm := assignFwd 'S' l 1
  let srm := assignRev 'S' l 1
  let r := transScanLines srm (pyReadLines content) false [] [] 1 []
  (r.1, r.2.1, r.2.2, sm, srm)

/-! ## `clean_transitions` -/

/-- Index of the leftmost occurrence of `pat` in `s`. -/
def findSub (pat : Str) : Str → Option Nat
  | [] => if pat.isPrefixOf ([] : Str) then some 0 else none
  | c :: rest =>
    if pat.isPrefixOf (c :: rest) then some 0
    else (findSub pat rest).map (· + 1)

theorem findSub_spec {pat s : Str} {j : Nat} (h : findSub pat s = some j) :
    pat.isPrefixOf (s.drop j) = true ∧ j + pat.length ≤ s.length := by
  induction s generalizing j with
  | nil =>
    simp only [findSub] at h
    split at h
    · next hp =>
      cases h
      refine ⟨hp, ?_⟩
      have := (List.isPrefixOf_iff_prefix.mp hp).length_le
      simpa using this
    · cases h
  | cons c rest ih =>
    simp only [findSub] at h
    split at h
    · next hp =>
      cases h
      refine ⟨hp, ?_⟩
      have := (List.isPrefixOf_iff_prefix.mp hp).length_le
      simpa using this
    · next hp =>
      match hr : findSub pat rest with
      | none => rw [hr] at h; cases h
      | some j0 =>
        rw [hr] at h
        cases h
        obtain ⟨hpre, hle⟩ := ih hr
        refine ⟨by simpa using hpre, by simpa using by omega⟩

/-- `re.compile(r'\s*weight=.*').sub('', s)`: repeatedly remove, at the leftmost
position where it matches, a maximal run of white space followed by `weight=` and
the rest of that line; scanning resumes after each removed match. -/
def rmWeightGo : Nat → Str → Str
  | 0, s => s
  | fuel + 1, s =>
    match findSub (strL "weight=") s with
    | none => s
    | some j =>
      s.take (j - ((s.take j).reverse.takeWhile isWsChar).length) ++
        rmWeightGo fuel ((s.drop (j + 7)).dropWhile (fun c => c ≠ '\n'))

def rmWeight (s : Str) : Str := rmWeightGo (s.length + 1) s

theorem rmWeightGo_mono : ∀ (f1 : Nat) (s : Str) (f2 : Nat), s.length < f1 → s.length < f2 →
    rmWeightGo f1 s = rmWeightGo f2 s := by
  intro f1
  induction f1 with
  | zero => intro s f2 h1 h2; omega
  | succ f ih =>
    intro s f2 h1 h2
    cases f2 with
    | zero => omega
    | succ f2 =>
      show (match findSub (strL "weight=") s with
            | none => s
            | some j =>
              s.take (j - ((s.take j).reverse.takeWhile isWsChar).length) ++
                rmWeightGo f ((s.drop (j + 7)).dropWhile (fun c => c ≠ '\n'))) =
           (match findSub (strL "weight=") s with
            | none => s
            | some j =>
              s.take (j - ((s.take j).reverse.takeWhile isWsChar).length) ++
                rmWeightGo f2 ((s.drop (j + 7)).dropWhile (fun c => c ≠ '\n')))
      split
      · rfl
      · rename_i j hj
        have hs := (findSub_spec hj).2
        have hlen7 : (strL "weight=").length = 7 := rfl
        have hd1 : (s.drop (j + 7)).length = s.length - (j + 7) := List.length_drop _ _
        have hd2 := length_dropWhile_le (fun c => c ≠ '\n') (s.drop (j + 7))
        rw [ih ((s.drop (j + 7)).dropWhile (fun c => c ≠ '\n')) f2 (by omega) (by omega)]

/-- The defining recurrence of `rmWeight`. -/
theorem rmWeight_eq (s : Str) :
    rmWeight s =
      match findSub (strL "weight=") s with
      | none => s
      | some j =>
        s.take (j - ((s.take j).reverse.takeWhile isWsChar).length) ++
          rmWeight ((s.drop (j + 7)).dropWhile (fun c => c ≠ '\n')) := by
  show (match findSub (strL "weight=") s with
        | none => s
        | some j =>
          s.take (j - ((s.take j).reverse.takeWhile isWsChar).length) ++
            rmWeightGo s.length ((s.drop (j + 7)).dropWhile (fun c => c ≠ '\n'))) = _
  split
  · rfl
  · rename_i j hj
    have hs := (findSub_spec hj).2
    have hlen7 : (strL "weight=").length = 7 := rfl
    have hd1 : (s.drop (j + 7)).length = s.length - (j + 7) := List.length_drop _ _
    have hd2 := length_dropWhile_le (fun c => c ≠ '\n') (s.drop (j + 7))
    rw [rmWeightGo_mono s.length ((s.drop (j + 7)).dropWhile (fun c => c ≠ '\n'))
      (((s.drop (j + 7)).dropWhile (fun c => c ≠ '\n')).length + 1) (by omega) (by omega)]
    rfl

/-- `clean_transitions`. -/
def clean_transitions (ts : List Str) : List Str :=
  ts.map (fun t => pyStrip (rmWeight t))

/-! ## `get_screens` -/

/-- `get_screens`: one `S<n>: <name or "Unknown Screen">` line per screen, sorted by
the numeric part of the canonical id, joined by newlines. -/
def get_screens (content : Str) : Str :=
  let maps := build_screen_id_maps content
  let items := maps.2.2.foldl (fun acc p =>
    match lookupA maps.2.1 p.1 with
    | some s =>
      acc ++ [(strVal (s.drop 1), s ++ strL ": " ++ (p.2.getD (strL "Unknown Screen")))]
    | none => acc) []
  joinNl ((sortS (fun a b => Nat.ble a.1 b.1) items).map (fun it => it.2))

/-! ## `get_extracted_transitions` -/

/-- `re.match(r'^(T\d+:\s*\(s:S\d+,t:S\d+\)):(.*)', line)`: the header group
(through the closing parenthesis) and the rest-of-line group. -/
def parseTHeader (s : Str) : Option (Str × Str) :=
  match s with
  | 'T' :: r1 =>
    match eatDigits r1 with
    | none => none
    | some (_, r2) =>
      match r2 with
      | ':' :: r3 =>
        match eatLit (strL "(s:S") (eatWs r3) with
        | none => none
        | some r5 =>
          match eatDigits r5 with
          | none => none
          | some (_, r6) =>
            match eatLit (strL ",t:S") r6 with
            | none => none
            | some r7 =>
              match eatDigits r7 with
              | none => none
              | some (_, r8) =>
                match r8 with
                | ')' :: ':' :: r10 =>
                  some (s.take (s.length - (r10.length + 1)),
                    r10.takeWhile (fun c => c ≠ '\n'))
                | _ => none
      | _ => none
  | _ => none

/-- One attempt of `act=\(\d+\)\s*([^,\]]+)` at the head of `s`; as white space is
neither `,` nor `]`, the greedy `\s*([^,\]]+)` with backtracking yields, after the
final `.strip()`, exactly the stripped run of non-`,`/`]` characters, which must be
nonempty for the pattern to match. -/
def matchAct (s : Str) : Option Str :=
  match eatLit (strL "act=(") s with
  | none => none
  | some r1 =>
    match eatDigits r1 with
    | none => none
    | some (_, r2) =>
      match r2 with
      | ')' :: r3 =>
        let t := r3.takeWhile (fun c => (c != ',') && (c != ']'))
        if t.isEmpty then none else some (pyStrip t)
      | _ => none

/-- `re.search` for the action pattern (leftmost position). -/
def findAct : Str → Option Str
  | [] => none
  | c :: rest =>
    match matchAct (c :: rest) with
    | some a => some a
    | none => findAct rest

/-- One attempt of `cp=(null|\[.*?\])` at the head of `s`; `some none` is `cp=null`,
`some (some inner)` is a bracketed component (lazy `.*?` up to the first `]`, with
`.` not matching a newline). -/
def matchCp (s : Str) : Option (Option Str) :=
  match eatLit (strL "cp=") s with
  | none => none
  | some r1 =>
    if (strL "null").isPrefixOf r1 then some none
    else
      match r1 with
      | '[' :: r2 =>
        let inner := r2.takeWhile (fun c => (c != ']') && (c != '\n'))
        match r2.drop inner.length with
        | ']' :: _ => some (some inner)
        | _ => none
      | _ => none

def findCp : Str → Option (Option Str)
  | [] => none
  | c :: rest =>
    match matchCp (c :: rest) with
    | some v => some v
    | none => findCp rest

/-- `re.search(key ++ r'([^,\]]+)', s)` for the `ty=`/`idx=`/`tx=` sub-fields. -/
def findPlus (key : Str) : Str → Option Str
  | [] => none
  | c :: rest =>
    if key.isPrefixOf (c :: rest) then
      let t := ((c :: rest).drop key.length).takeWhile (fun c2 => (c2 != ',') && (c2 != ']'))
      if t.isEmpty then findPlus key rest else some (pyStrip t)
    else findPlus key rest

/-- `re.search(r'dsc=([^\]]*)', s)`: the group may be empty. -/
def findStar (key : Str) : Str → Option Str
  | [] => none
  | c :: rest =>
    if key.isPrefixOf (c :: rest) then
      some (pyStrip (((c :: rest).drop key.length).takeWhile (fun c2 => c2 != ']')))
    else findStar key rest

/-- Processing of one simplified transition line by `get_extracted_transitions`. -/
def extractOne (s : Str) : Option Str :=
  match parseTHeader s with
  | none => none
  | some (g1, g2) =>
    let header_part := pyStrip g1
    let details := pyStrip g2
    let action := (findAct details).getD []
    let compInner :=
      match findCp details with
      | some (some inner) => pyStrip inner
      | _ => []
    let ty := if compInner.isEmpty then [] else (findPlus (strL "ty=") compInner).getD []
    let idx := if compInner.isEmpty then [] else (findPlus (strL "idx=") compInner).getD []
    let tx := if compInner.isEmpty then [] else (findPlus (strL "tx=") compInner).getD []
    let dsc := if compInner.isEmpty then [] else (findStar (strL "dsc=") compInner).getD []
    some (header_part ++ strL ": Action = \"" ++ action ++ strL "\"; Component = [Type = \"" ++
      ty ++ strL "\", Identifier = \"" ++ idx ++ strL "\", Text = \"" ++ tx ++
      strL "\", Description = \"" ++ dsc ++ strL "\"]")

/-- `get_extracted_transitions`. -/
def get_extracted_transitions (ls : List Str) : List Str :=
  ls.filterMap extractOne

/-! ## Bidirectional screen-id rewriting -/

/-- Condition for `re.sub(r'\b' + re.escape(tok) + r'\b', ...)` to match at the
current position: previous character not a word character, `tok` a prefix of the
remaining text, and the character after `tok` (if any) not a word character.
(The tokens substituted by the source — `S<n>` ids and hex hashes — start and end
with word characters, so `\b` reduces to exactly these conditions.) -/
def tokMatchOk (tok : Str) (s : Str) (prevW : Bool) : Bool :=
  !tok.isEmpty && !prevW && tok.isPrefixOf s &&
    (match s.drop tok.length with
     | [] => true
     | d :: _ => !isWordChar d)

/-- `re.sub(r'\b' + re.escape(tok) + r'\b', rep, ·)`: scan left to right, replace
each non-overlapping match, resume after the matched token (the boundary context for
the resumed scan is the last character of the original matched token). -/
def subTokGo (tok rep : Str) : Nat → Bool → Str → Str
  | 0, _, s => s
  | _, _, [] => []
  | fuel + 1, prevW, c :: rest =>
    if tokMatchOk tok (c :: rest) prevW then
      rep ++ subTokGo tok rep fuel (isWordChar (tok.getLastD 'a')) ((c :: rest).drop tok.length)
    else c :: subTokGo tok rep fuel (isWordChar c) rest

def subTok (tok rep : Str) (prevW : Bool) (s : Str) : Str :=
  subTokGo tok rep (s.length + 1) prevW s

theorem tokMatchOk_pos {tok s : Str} {prevW : Bool} (h : tokMatchOk tok s prevW = true) :
    0 < tok.length := by
  rcases tok with _ | ⟨a, t⟩
  · simp [tokMatchOk] at h
  · simp

theorem subTokGo_mono (tok rep : Str) : ∀ (f1 : Nat) (prevW : Bool) (s : Str) (f2 : Nat),
    s.length < f1 → s.length < f2 →
    subTokGo tok rep f1 prevW s = subTokGo tok rep f2 prevW s := by
  intro f1
  induction f1 with
  | zero => intro prevW s f2 h1 h2; omega
  | succ f ih =>
    intro prevW s f2 h1 h2
    cases f2 with
    | zero => omega
    | succ f2 =>
      match s with
      | [] => rfl
      | c :: rest =>
        show (if tokMatchOk tok (c :: rest) prevW then _ else _) =
             (if tokMatchOk tok (c :: rest) prevW then _ else _)
        by_cases hm : tokMatchOk tok (c :: rest) prevW
        · have hpos := tokMatchOk_pos hm
          simp only [hm, if_true]
          rw [ih _ ((c :: rest).drop tok.length) f2
            (by simp only [List.length_drop, List.length_cons] at *; omega)
            (by simp only [List.length_drop, List.length_cons] at *; omega)]
        · simp only [hm, if_false, Bool.false_eq_true]
          rw [ih _ rest f2 (by simp only [List.length_cons] at *; omega)
            (by simp only [List.length_cons] at *; omega)]

/-- The defining recurrences of `subTok`. -/
theorem subTok_nil (tok rep : Str) (prevW : Bool) : subTok tok rep prevW [] = [] := rfl

theorem subTok_cons (tok rep : Str) (prevW : Bool) (c : Char) (rest : Str) :
    subTok tok rep prevW (c :: rest) =
      if tokMatchOk tok (c :: rest) prevW then
        rep ++ subTok tok rep (isWordChar (tok.getLastD 'a')) ((c :: rest).drop tok.length)
      else c :: subTok tok rep (isWordChar c) rest := by
  show (if tokMatchOk tok (c :: rest) prevW then _ else _) = _
  simp only [List.length_cons]
  by_cases hm : tokMatchOk tok (c :: rest) prevW
  · have hpos := tokMatchOk_pos hm
    simp only [hm, if_true]
    rw [subTokGo_mono tok rep (rest.length + 1) _ ((c :: rest).drop tok.length)
      (((c :: rest).drop tok.length).length + 1)
      (by simp only [List.length_drop, List.length_cons]; omega) (by omega)]
    rfl
  · simp only [hm, if_false, Bool.false_eq_true]
    rw [subTokGo_mono tok rep (rest.length + 1) _ rest (rest.length + 1)
      (by omega) (by omega)]
    rfl

/-- `replace_simplified_screen_ids_with_original_ids`: substitute canonical ids by
original ids, processing ids by descending numeric part (`sorted(..., reverse=True)`
is stable, as is the insertion sort used here). -/
def replace_simplified_screen_ids_with_original_ids (text : Str)
    (screen_id_map : List (Str × Str)) : Str :=
  let sortedIds := sortS (fun a b => Nat.ble (strVal (b.drop 1)) (strVal (a.drop 1)))
    (screen_id_map.map Prod.fst)
  sortedIds.foldl (fun t k =>
    match lookupA screen_id_map k with
    | some orig => subTok k orig false t
    | none => t) text

/-- Python string comparison (lexicographic on code points). -/
def strLe : Str → Str → Bool
  | [], _ => true
  | _ :: _, [] => false
  | a :: ra, b :: rb => if a = b then strLe ra rb else decide (a.toNat < b.toNat)

/-- `le` relation realizing `sorted(keys, key=lambda x: (len(x), x), reverse=True)`:
`a` may precede `b` iff `(len(b), b) <= (len(a), a)` lexicographically. -/
def lenLexGe (a b : Str) : Bool :=
  if b.length = a.length then strLe b a else Nat.ble b.length a.length

/-- `replace_original_screen_ids_with_simplified_ids`: substitute original ids by
canonical ids, processing original ids by descending `(length, value)`. -/
def replace_original_screen_ids_with_simplified_ids (text : Str)
    (reverse_screen_id_map : List (Str × Str)) : Str :=
  let sorted := sortS lenLexGe (reverse_screen_id_map.map Prod.fst)
  sorted.foldl (fun t k =>
    match lookupA reverse_screen_id_map k with
    | some simpId => subTok k simpId false t
    | none => t) text

/-! ## `get_original_transition_ids` -/

def pyUpper (s : Str) : Str := s.map Char.toUpper

/-- Case-insensitive literal (the pattern is compiled with `re.IGNORECASE`). -/
def eatLitCI : Str → Str → Option Str
  | [], s => some s
  | _ :: _, [] => none
  | a :: la, b :: lb => if a.toUpper = b.toUpper then eatLitCI la lb else none

/-- Index of the last newline of a string, if any. -/
def lastIdxNl : Str → Option Nat
  | [] => none
  | c :: t =>
    match lastIdxNl t with
    | some k => some (k + 1)
    | none => if c = '\n' then some 0 else none

/-- `\s*$` under `re.MULTILINE`, with the greedy run backtracking until `$` holds:
consume the white space up to the end of the string if it reaches it, otherwise up
to the last newline inside the run; returns the text after the match end. -/
def wsEnd (s : Str) : Option Str :=
  let w := s.takeWhile isWsChar
  if (s.drop w.length).isEmpty then some []
  else
    match lastIdxNl w with
    | some k => some (s.drop k)
    | none => none

/-- `[cls]?\s*$` at `r1` (the optional class character is preferred when present). -/
def tryClsAt (cls : List Char) (r1 : Str) : Option Str :=
  match (match r1 with
         | c :: r2 => if c ∈ cls then wsEnd r2 else none
         | [] => none) with
  | some rem => some rem
  | none => wsEnd r1

/-- `\s*[cls]?\s*$` with the greedy first run backtracking from `k` characters down. -/
def optClsWsEndGo (cls : List Char) (rest : Str) : Nat → Option Str
  | 0 => tryClsAt cls rest
  | k + 1 =>
    match tryClsAt cls (rest.drop (k + 1)) with
    | some rem => some rem
    | none => optClsWsEndGo cls rest k

def optClsWsEnd (cls : List Char) (rest : Str) : Option Str :=
  optClsWsEndGo cls rest (rest.takeWhile isWsChar).length

/-- `T?` before a digit group (`re.IGNORECASE`): the optional letter is consumed
when present; if no digits follow, the enclosing `\d+` fails either way. -/
def optT (s : Str) : Str :=
  match s with
  | c :: rest => if c.toUpper = 'T' then rest else c :: rest
  | [] => []

/-- Alternatives 1-3: `<\s*T?(\d+)\s*>\s*$`, `\(\s*T?(\d+)\s*\)\s*$`,
`\[\s*T?(\d+)\s*\]\s*$`. Returns the digit group and the text after the match. -/
def altWrap (cO cC : Char) (s : Str) : Option (Str × Str) :=
  match s with
  | c0 :: r1 =>
    if c0 = cO then
      match eatDigits (optT (eatWs r1)) with
      | none => none
      | some (d, r4) =>
        match eatWs r4 with
        | c5 :: r5 =>
          if c5 = cC then
            match wsEnd r5 with
            | some rem => some (d, rem)
            | none => none
          else none
        | [] => none
    else none
  | [] => none

/-- Alternative 4: `[\(<\[]?\s*transition_id\s*[:=\-]\s*T?\s*(\d+)\s*[\)> \]]?\s*$`. -/
def altTransId (s : Str) : Option (Str × Str) :=
  let r1 := match s with
    | c :: rest => if c ∈ ['(', '<', '['] then rest else s
    | [] => s
  match eatLitCI (strL "transition_id") (eatWs r1) with
  | none => none
  | some r3 =>
    match eatWs r3 with
    | c4 :: r4 =>
      if c4 ∈ [':', '=', '-'] then
        let r5 := eatWs r4
        let r6 := match r5 with
          | c :: rest => if c.toUpper = 'T' then eatWs rest else r5
          | [] => r5
        match eatDigits r6 with
        | none => none
        | some (d, r7) =>
          match optClsWsEnd [')', '>', ' ', ']'] r7 with
          | some rem => some (d, rem)
          | none => none
      else none
    | [] => none

/-- Alternative 5: `\(?\s*transition\s+T?(\d+)\s*\)?\s*$`. -/
def altTransWord (s : Str) : Option (Str × Str) :=
  let r1 := match s with
    | '(' :: rest => rest
    | _ => s
  match eatLitCI (strL "transition") (eatWs r1) with
  | none => none
  | some r3 =>
    let w := r3.takeWhile isWsChar
    if w.isEmpty then none
    else
      match eatDigits (optT (r3.drop w.length)) with
      | none => none
      | some (d, r5) =>
        match optClsWsEnd [')'] r5 with
        | some rem => some (d, rem)
        | none => none

/-- Alternative 6: `^Transition[: ]\s*T?(\d+)\s*$` (only at a line start). -/
def altTransHead (s : Str) : Option (Str × Str) :=
  match eatLitCI (strL "Transition") s with
  | none => none
  | some r1 =>
    match r1 with
    | c2 :: r2 =>
      if c2 = ':' ∨ c2 = ' ' then
        match eatDigits (optT (eatWs r2)) with
        | none => none
        | some (d, r4) =>
          match wsEnd r4 with
          | some rem => some (d, rem)
          | none => none
      else none
    | [] => none

/-- Alternative 7: `^T?(\d+)\s*$` (only at a line start). -/
def altBare (s : Str) : Option (Str × Str) :=
  match eatDigits (optT s) with
  | none => none
  | some (d, r1) =>
    match wsEnd r1 with
    | some rem => some (d, rem)
    | none => none

/-- The full alternation of `get_original_transition_ids`, tried in source order at
one position (`atLS`: the position is the start of the string or follows a newline,
where the `re.MULTILINE` `^` anchors of alternatives 6 and 7 can match). -/
def tryAlts (s : Str) (atLS : Bool) : Option (Str × Str) :=
  match altWrap '<' '>' s with
  | some r => some r
  | none =>
  match altWrap '(' ')' s with
  | some r => some r
  | none =>
  match altWrap '[' ']' s with
  | some r => some r
  | none =>
  match altTransId s with
  | some r => some r
  | none =>
  match altTransWord s with
  | some r => some r
  | none =>
  if atLS then
    match altTransHead s with
    | some r => some r
    | none => altBare s
  else none

/-- `pattern.sub(replacer, text)` for the transition-reference pattern: scan left to
right, replace each leftmost match by `<original_id>` (the group is `(\d+)`, so the
replacer's `.strip().upper()` is the identity and its `isdigit()` branch prepends
`T`), and resume scanning after the match. Every alternative consumes at least one
digit, so the guard `hlen` always holds; it serves the termination argument. -/
def gotScanGo (nm : List (Str × Str)) : Nat → Str → Bool → Str
  | 0, _, _ => []
  | _, [], _ => []
  | fuel + 1, c :: rest, atLS =>
    match tryAlts (c :: rest) atLS with
    | some (d, rem) =>
      if rem.length < rest.length + 1 then
        ('<' :: ((lookupA nm ('T' :: d)).getD ('T' :: d)) ++ ['>']) ++
          gotScanGo nm fuel rem
            (((c :: rest).take (rest.length + 1 - rem.length)).getLast? == some '\n')
      else c :: gotScanGo nm fuel rest (c == '\n')
    | none => c :: gotScanGo nm fuel rest (c == '\n')

def gotScan (nm : List (Str × Str)) (s : Str) (atLS : Bool) : Str :=
  gotScanGo nm (s.length + 1) s atLS

/-- `get_original_transition_ids`: keys of the transition map normalized to
upper case, then the tolerant reference rewrite. -/
def get_original_transition_ids (text : Str) (transition_id_map : List (Str × Str)) : Str :=
  let nm := transition_id_map.map (fun p => (pyUpper (pyStrip p.1), p.2))
  gotScan nm text true

/-! ## Dedup and scan characterization lemmas -/

def dedupInto (base : List Str) (hs : List Str) : List Str := hs.foldl addNew base

/-- Transition-record hashes in scan order: the hash of every line inside the
Transitions section that matches `^[a-f0-9]{64}:` and has a parsable
`(s:..., t:...)` pair; scanning stops at a `States` line. -/
def scanTHashes : List Str → Bool → List Str
  | [], _ => []
  | l :: rest, inside =>
    if (strL "Transitions").isPrefixOf (pyStrip l) then scanTHashes rest true
    else if (strL "States").isPrefixOf (pyStrip l) then []
    else if inside then
      match lineTransParts (pyStrip l) with
      | some (hsh, _, _) => hsh :: scanTHashes rest inside
      | none => scanTHashes rest inside
    else scanTHashes rest inside

def transHashesOf (content : Str) : List Str :=
  scanTHashes (pyReadLines content) false

theorem addNew_nodup {acc : List Str} {h : Str} (hnd : acc.Nodup) : (addNew acc h).Nodup := by
  unfold addNew
  split
  · exact hnd
  · next hmem =>
    refine List.Nodup.append hnd (List.nodup_singleton h) ?_
    intro a ha hb
    simp only [List.mem_singleton] at hb
    subst hb
    exact hmem ha

theorem mem_addNew {acc : List Str} {h x : Str} : x ∈ addNew acc h ↔ x ∈ acc ∨ x = h := by
  unfold addNew
  split
  · next hmem =>
    constructor
    · exact Or.inl
    · rintro (hx | rfl)
      · exact hx
      · exact hmem
  · simp

theorem dedupInto_nodup : ∀ (hs base : List Str), base.Nodup → (dedupInto base hs).Nodup := by
  intro hs
  induction hs with
  | nil => intro base hnd; exact hnd
  | cons h t ih =>
    intro base hnd
    exact ih (addNew base h) (addNew_nodup hnd)

theorem mem_dedupInto : ∀ (hs base : List Str) (x : Str),
    x ∈ dedupInto base hs ↔ x ∈ base ∨ x ∈ hs := by
  intro hs
  induction hs with
  | nil => simp [dedupInto]
  | cons h t ih =>
    intro base x
    show x ∈ dedupInto (addNew base h) t ↔ _
    rw [ih]
    rw [mem_addNew]
    simp only [List.mem_cons]
    tauto

def flatPairs : List (Str × Str) → List Str
  | [] => []
  | p :: t => p.1 :: p.2 :: flatPairs t

def dedupEx (base : List Str) : List Str → List Str
  | [] => []
  | h :: t => if h ∈ base then dedupEx base t else h :: dedupEx (base ++ [h]) t

theorem foldl_addNew_eq : ∀ (hs base : List Str),
    hs.foldl addNew base = base ++ dedupEx base hs := by
  intro hs
  induction hs with
  | nil => intro base; simp [dedupEx]
  | cons h t ih =>
    intro base
    show List.foldl addNew (addNew base h) t = _
    rw [ih]
    by_cases hm : h ∈ base
    · rw [show addNew base h = base from by simp [addNew, hm]]
      simp [dedupEx, hm]
    · rw [show addNew base h = base ++ [h] from by simp [addNew, hm]]
      simp [dedupEx, hm]

theorem foldl_pairs_eq_flat : ∀ (prs : List (Str × Str)) (acc : List Str),
    prs.foldl (fun a p => addNew (addNew a p.1) p.2) acc = (flatPairs prs).foldl addNew acc := by
  intro prs
  induction prs with
  | nil => intro acc; rfl
  | cons p t ih => intro acc; exact ih _

theorem allUniqueHashes_eq (content : Str) :
    allUniqueHashes content =
      (statesScan content).1 ++
        dedupEx (statesScan content).1 (flatPairs (transPairsOf content)) := by
  unfold allUniqueHashes
  rw [foldl_pairs_eq_flat, foldl_addNew_eq]

theorem statesScan_fold_nodup :
    ∀ (bs : List Str) (st : List Str × List (Str × Str)), st.1.Nodup →
      (bs.foldl (fun st b =>
        match parseBlockHeader b with
        | some (h, nm) => if h ∈ st.1 then st else (st.1 ++ [h], st.2 ++ [(h, nm)])
        | none => st) st).1.Nodup := by
  intro bs
  induction bs with
  | nil => intro st hnd; exact hnd
  | cons b t ih =>
    intro st hnd
    refine ih _ ?_
    match hp : parseBlockHeader b with
    | none => simpa [hp] using hnd
    | some (h, nm) =>
      simp only [hp]
      split
      · exact hnd
      · next hmem =>
        refine List.Nodup.append hnd (List.nodup_singleton h) ?_
        intro a ha hb
        simp only [List.mem_singleton] at hb
        subst hb
        exact hmem ha

theorem statesScan_nodup (content : Str) : (statesScan content).1.Nodup := by
  unfold statesScan
  match statesRaw content with
  | none => exact List.nodup_nil
  | some raw => exact statesScan_fold_nodup _ _ List.nodup_nil

theorem foldl_addNew_nodup : ∀ (hs base : List Str), base.Nodup →
    (hs.foldl addNew base).Nodup := by
  intro hs
  induction hs with
  | nil => intro base hnd; exact hnd
  | cons h t ih => intro base hnd; exact ih _ (addNew_nodup hnd)

theorem allUniqueHashes_nodup (content : Str) : (allUniqueHashes content).Nodup := by
  unfold allUniqueHashes
  rw [foldl_pairs_eq_flat]
  exact foldl_addNew_nodup _ _ (statesScan_nodup content)

theorem assignFwd_append (c : Char) (l1 l2 : List Str) (k : Nat) :
    assignFwd c (l1 ++ l2) k = assignFwd c l1 k ++ assignFwd c l2 (k + l1.length) := by
  induction l1 generalizing k with
  | nil => simp [assignFwd]
  | cons h t ih =>
    simp only [List.cons_append, assignFwd, List.length_cons, List.append_eq]
    rw [ih]
    have he : k + 1 + t.length = k + (t.length + 1) := by omega
    rw [he]

theorem assignRev_append (c : Char) (l1 l2 : List Str) (k : Nat) :
    assignRev c (l1 ++ l2) k = assignRev c l1 k ++ assignRev c l2 (k + l1.length) := by
  induction l1 generalizing k with
  | nil => simp [assignRev]
  | cons h t ih =>
    simp only [List.cons_append, assignRev, List.length_cons, List.append_eq]
    rw [ih]
    have he : k + 1 + t.length = k + (t.length + 1) := by omega
    rw [he]

theorem lookupA_assignRev_isSome {c : Char} : ∀ {l : List Str} {k : Nat} {h : Str},
    (lookupA (assignRev c l k) h).isSome = true ↔ h ∈ l := by
  intro l
  induction l with
  | nil => intro k h; simp [assignRev, lookupA]
  | cons h0 t ih =>
    intro k h
    simp only [assignRev, lookupA]
    split
    · next he => simp [he]
    · next he =>
      rw [ih]
      simp only [List.mem_cons]
      constructor
      · exact Or.inr
      · rintro (rfl | hx)
        · exact absurd rfl he
        · exact hx

theorem lookupA_assignRev_none {c : Char} : ∀ {l : List Str} {k : Nat} {h : Str},
    h ∉ l → lookupA (assignRev c l k) h = none := by
  intro l
  induction l with
  | nil => intro k h _; rfl
  | cons h0 t ih =>
    intro k h hm
    simp only [assignRev, lookupA]
    rw [if_neg (by intro he; exact hm (by simp [he]))]
    exact ih (fun hx => hm (List.mem_cons_of_mem _ hx))

theorem lookupA_assignRev_get {c : Char} : ∀ {l : List Str} {k : Nat} {i : Nat} {h : Str},
    l.Nodup → l.get? i = some h → lookupA (assignRev c l k) h = some (mkId c (k + i)) := by
  intro l
  induction l with
  | nil => intro k i h _ hg; simp at hg
  | cons h0 t ih =>
    intro k i h hnd hg
    match i with
    | 0 =>
      simp only [List.get?] at hg
      cases hg
      simp [assignRev, lookupA]
    | i + 1 =>
      simp only [List.get?] at hg
      have hmem : h ∈ t := List.get?_mem hg
      have hne : h0 ≠ h := by
        intro he
        subst he
        exact (List.nodup_cons.mp hnd).1 hmem
      simp only [assignRev, lookupA, if_neg hne]
      rw [ih (List.nodup_cons.mp hnd).2 hg]
      have he : k + 1 + i = k + (i + 1) := by omega
      rw [he]

/-- The incremental transition-id maps of the line loop equal the sequential
assignment over the first-appearance dedup of the scanned transition hashes. -/
theorem transScan_maps (srm : List (Str × Str)) :
    ∀ (lines : List Str) (inside : Bool) (D : List Str) (acc : List Str),
      (transScanLines srm lines inside (assignFwd 'T' D 1) (assignRev 'T' D 1)
          (D.length + 1) acc).2 =
        (assignFwd 'T' (dedupInto D (scanTHashes lines inside)) 1,
         assignRev 'T' (dedupInto D (scanTHashes lines inside)) 1) := by
  intro lines
  induction lines with
  | nil => intro inside D acc; rfl
  | cons l rest ih =>
    intro inside D acc
    rw [transScanLines, scanTHashes]
    by_cases ht : (strL "Transitions").isPrefixOf (pyStrip l)
    · simp only [ht, if_true]
      exact ih true D acc
    · simp only [ht, Bool.false_eq_true, if_false]
      by_cases hs : (strL "States").isPrefixOf (pyStrip l)
      · simp only [hs, if_true]
        rfl
      · simp only [hs, Bool.false_eq_true, if_false]
        by_cases hin : inside
        · subst hin
          simp only [if_true]
          match hp : lineTransParts (pyStrip l) with
          | none => exact ih true D _
          | some (hsh, srcH, tgtH) =>
            by_cases hmem : hsh ∈ D
            · have hsome : (lookupA (assignRev 'T' D 1) hsh).isSome = true :=
                lookupA_assignRev_isSome.mpr hmem
              simp only [hsome, if_true]
              have haddD : addNew D hsh = D := by simp [addNew, hmem]
              have := ih true D
                (acc ++ [mkNewLine srm (assignRev 'T' D 1) (pyStrip l) hsh srcH tgtH])
              simpa [dedupInto, haddD] using this
            · have hnone : (lookupA (assignRev 'T' D 1) hsh).isSome = false := by
                rw [lookupA_assignRev_none hmem]; rfl
              simp only [hnone, Bool.false_eq_true, if_false]
              have h1 : assignFwd 'T' D 1 ++ [(mkId 'T' (D.length + 1), hsh)] =
                  assignFwd 'T' (D ++ [hsh]) 1 := by
                rw [assignFwd_append]
                simp [assignFwd, Nat.add_comm]
              have h2 : assignRev 'T' D 1 ++ [(hsh, mkId 'T' (D.length + 1))] =
                  assignRev 'T' (D ++ [hsh]) 1 := by
                rw [assignRev_append]
                simp [assignRev, Nat.add_comm]
              have h3 : D.length + 1 + 1 = (D ++ [hsh]).length + 1 := by
                simp
              rw [h1, h2, h3]
              have haddD : addNew D hsh = D ++ [hsh] := by simp [addNew, hmem]
              have := ih true (D ++ [hsh])
                (acc ++ [mkNewLine srm (assignRev 'T' D 1 ++ [(hsh, mkId 'T' (D.length + 1))])
                  (pyStrip l) hsh srcH tgtH])
              rw [h2] at this
              simpa [dedupInto, haddD] using this
        · simp only [Bool.not_eq_true] at hin
          subst hin
          simp only [Bool.false_eq_true, if_false]
          exact ih false D acc

/-! ## Projections of `get_transitions` -/

theorem get_transitions_tm (content : Str) :
    (get_transitions content).2.1 =
      assignFwd 'T' (dedupInto [] (transHashesOf content)) 1 := by
  have h := transScan_maps (assignRev 'S' (allUniqueHashes content) 1)
    (pyReadLines content) false [] []
  exact congrArg Prod.fst h

theorem get_transitions_trm (content : Str) :
    (get_transitions content).2.2.1 =
      assignRev 'T' (dedupInto [] (transHashesOf content)) 1 := by
  have h := transScan_maps (assignRev 'S' (allUniqueHashes content) 1)
    (pyReadLines content) false [] []
  exact congrArg Prod.snd h

/-! ## Concrete fixture documents -/

def hashA : Str := List.replicate 64 'a'
def hashB : Str := List.replicate 64 'b'
def hashC : Str := List.replicate 64 'c'
def hashD : Str := List.replicate 64 'd'
def hash1 : Str := List.replicate 64 '1'
def hash3 : Str := List.replicate 64 '3'

/-- The C3 scenario document: one transition, two named screens. -/
def docC3 : Str :=
  strL "Transitions (1):\n" ++ hashC ++ strL ": (s:" ++ hashA ++ strL ", t:" ++ hashB ++
    strL "): act=(1) click, cp=[ty=Button,idx=login_btn,tx=Login,dsc=] weight=0.5\n" ++
  strL "States (2):\n" ++ hashA ++ strL ", Login,\n" ++ hashB ++ strL ", Home,\n"

/-- The C2 ordering fixture: States declares `hashA, hashB`; one transition
references the third hash `hashD` not declared in States. -/
def docC2 : Str :=
  strL "Transitions (1):\n" ++ hashC ++ strL ": (s:" ++ hashA ++ strL ", t:" ++ hashD ++
    strL "): act=(2) tap weight=1\n" ++
  strL "States (2):\n" ++ hashA ++ strL ", One,\n" ++ hashB ++ strL ", Two,\n"

/-- A document whose States section precedes the Transitions header. -/
def docC10 : Str :=
  strL "States (1):\n" ++ hashA ++ strL ", Login,\n" ++ strL "Transitions (1):\n" ++
    hashC ++ strL ": (s:" ++ hashA ++ strL ", t:" ++ hashA ++ strL "): x\n"

/-- A document with a States section but no line starting with a 64-hex hash
followed by a comma. -/
def docC7 : Str := strL "States (0):\nno screen lines here\n"

/-! ## Claim C1 -/

/-- C1: for every input document, the two screen ID maps built by
`_build_screen_id_maps` (returned by `get_transitions` as its last two components)
form one bijection, and so do the two transition ID maps returned by
`get_transitions`: an original id looks up to a canonical id exactly when that
canonical id looks up back to the original id, which yields both round-trip
equations on every id the maps contain (every hash seen in the document for
screens, every assigned `T<n>` for transitions). -/
theorem c1_id_maps_bijective (content h s : Str) :
    (lookupA (get_transitions content).2.2.2.2 h = some s ↔
       lookupA (get_transitions content).2.2.2.1 s = some h) ∧
    (lookupA (get_transitions content).2.2.1 h = some s ↔
       lookupA (get_transitions content).2.1 s = some h) := by
  constructor
  · show lookupA (assignRev 'S' (allUniqueHashes content) 1) h = some s ↔
      lookupA (assignFwd 'S' (allUniqueHashes content) 1) s = some h
    exact assign_bijective (allUniqueHashes_nodup content) 1 h s
  · rw [get_transitions_trm, get_transitions_tm]
    exact assign_bijective (dedupInto_nodup _ _ List.nodup_nil) 1 h s

/-! ## Claim C2 -/

/-- C2: canonical screen ids are assigned in order: the first-occurrence hashes of
the States section first, then the transition-header hashes not already seen,
appended in first-appearance order (source before target, document order); the
reverse map sends the `i`-th hash of that order to `S<i+1>`; in particular, on the
fixture where States declares `hashA, hashB` and a transition references `hashD`,
the order is `[hashA, hashB, hashD]`, so `S1=hashA`, `S2=hashB`, `S3=hashD`. -/
theorem c2_screen_id_ordering :
    (∀ content, allUniqueHashes content =
       (statesScan content).1 ++
         dedupEx (statesScan content).1 (flatPairs (transPairsOf content))) ∧
    (∀ content i hh, (allUniqueHashes content).get? i = some hh →
       lookupA (get_transitions content).2.2.2.2 hh = some (mkId 'S' (i + 1))) ∧
    allUniqueHashes docC2 = [hashA, hashB, hashD] := by
  refine ⟨allUniqueHashes_eq, ?_, by decide⟩
  intro content i hh hg
  show lookupA (assignRev 'S' (allUniqueHashes content) 1) hh = _
  rw [lookupA_assignRev_get (allUniqueHashes_nodup content) hg]
  rw [Nat.add_comm]

/-- Witness: the third screen of the C2 fixture gets id `S3`. -/
theorem c2_screen_id_ordering_witness :
    lookupA (get_transitions docC2).2.2.2.2 hashD = some (mkId 'S' 3) :=
  c2_screen_id_ordering.2.1 docC2 2 hashD (by decide)

/-! ## Claim C9 -/

/-- C9: `get_transitions` assigns transition canonical ids `T1, T2, ...` in strict
first-appearance order of the distinct transition hashes of the well-formed lines
inside the Transitions section (`transHashesOf` collects exactly those hashes, by
its definition via the same scan): both maps equal the sequential assignment over
the first-appearance dedup of that hash list, the `i`-th distinct hash maps to
`T<i+1>`, and a hash not among the scanned hashes — in particular one occurring
only outside the Transitions section or only on a line whose pair does not
parse — is absent from the maps. -/
theorem c9_transition_id_assignment (content : Str) :
    ((get_transitions content).2.1 =
       assignFwd 'T' (dedupInto [] (transHashesOf content)) 1) ∧
    ((get_transitions content).2.2.1 =
       assignRev 'T' (dedupInto [] (transHashesOf content)) 1) ∧
    (∀ i hh, (dedupInto [] (transHashesOf content)).get? i = some hh →
       lookupA (get_transitions content).2.2.1 hh = some (mkId 'T' (i + 1))) ∧
    (∀ hh, hh ∉ transHashesOf content →
       lookupA (get_transitions content).2.2.1 hh = none) := by
  refine ⟨get_transitions_tm content, get_transitions_trm content, ?_, ?_⟩
  · intro i hh hg
    rw [get_transitions_trm]
    rw [lookupA_assignRev_get (dedupInto_nodup _ _ List.nodup_nil) hg]
    rw [Nat.add_comm]
  · intro hh hm
    rw [get_transitions_trm]
    refine lookupA_assignRev_none ?_
    intro hx
    rcases (mem_dedupInto _ _ _).mp hx with h0 | h1
    · simp at h0
    · exact hm h1

/-- Witness: on the C3 document the single transition hash gets `T1` and a screen
hash gets no transition id. -/
theorem c9_transition_id_assignment_witness :
    lookupA (get_transitions docC3).2.2.1 hashC = some (mkId 'T' 1) ∧
      lookupA (get_transitions docC3).2.2.1 hashA = none :=
  ⟨(c9_transition_id_assignment docC3).2.2.1 0 hashC (by decide),
   (c9_transition_id_assignment docC3).2.2.2 hashA (by decide)⟩

/-! ## Claim C10 -/

theorem states_not_transitions {x : Str} (hs : (strL "States").isPrefixOf x = true) :
    (strL "Transitions").isPrefixOf x = false := by
  cases x with
  | nil =>
    rw [show strL "States" = 'S' :: strL "tates" from rfl] at hs
    simp [List.isPrefixOf] at hs
  | cons c t =>
    rw [show strL "States" = 'S' :: strL "tates" from rfl] at hs
    rw [show strL "Transitions" = 'T' :: strL "ransitions" from rfl]
    simp only [List.isPrefixOf, Bool.and_eq_true, beq_iff_eq] at hs
    obtain ⟨hc, -⟩ := hs
    subst hc
    simp [List.isPrefixOf]

theorem transScan_states_break (srm : List (Str × Str)) :
    ∀ (pre : List Str) (sline : Str) (post : List Str),
      (strL "States").isPrefixOf (pyStrip sline) = true →
      (∀ l ∈ pre, (strL "Transitions").isPrefixOf (pyStrip l) = false) →
      ∀ (tm trm : List (Str × Str)) (k : Nat) (acc : List Str),
        transScanLines srm (pre ++ sline :: post) false tm trm k acc = (acc, tm, trm) := by
  intro pre
  induction pre with
  | nil =>
    intro sline post hs hpre tm trm k acc
    rw [List.nil_append, transScanLines]
    rw [states_not_transitions hs]
    simp only [Bool.false_eq_true, if_false, hs, if_true]
  | cons l pre' ih =>
    intro sline post hs hpre tm trm k acc
    rw [List.cons_append, transScanLines]
    rw [hpre l (List.mem_cons_self _ _)]
    simp only [Bool.false_eq_true, if_false]
    by_cases hsl : (strL "States").isPrefixOf (pyStrip l)
    · simp only [hsl, if_true]
    · simp only [hsl, Bool.false_eq_true, if_false]
      exact ih sline post hs (fun x hx => hpre x (List.mem_cons_of_mem _ hx)) tm trm k acc

/-- C10: in the line scan of `get_transitions`, a (stripped) line starting with
`States` terminates scanning unconditionally, even when no `Transitions` header was
seen: if some line starts with `States` and no earlier line starts with
`Transitions`, then no transition record is ever produced — the simplified
transition list and both transition ID maps come back empty. -/
theorem c10_states_line_terminates_scan (content : Str) (pre : List Str) (sline : Str)
    (post : List Str)
    (hsplit : pyReadLines content = pre ++ sline :: post)
    (hs : (strL "States").isPrefixOf (pyStrip sline) = true)
    (hpre : ∀ l ∈ pre, (strL "Transitions").isPrefixOf (pyStrip l) = false) :
    (get_transitions content).1 = [] ∧ (get_transitions content).2.1 = [] ∧
      (get_transitions content).2.2.1 = [] := by
  have h := transScan_states_break (assignRev 'S' (allUniqueHashes content) 1)
    pre sline post hs hpre [] [] 1 []
  rw [← hsplit] at h
  refine ⟨?_, ?_, ?_⟩
  · show (transScanLines (assignRev 'S' (allUniqueHashes content) 1)
      (pyReadLines content) false [] [] 1 []).1 = []
    rw [h]
  · show (transScanLines (assignRev 'S' (allUniqueHashes content) 1)
      (pyReadLines content) false [] [] 1 []).2.1 = []
    rw [h]
  · show (transScanLines (assignRev 'S' (allUniqueHashes content) 1)
      (pyReadLines content) false [] [] 1 []).2.2 = []
    rw [h]

/-- Witness: on a document whose States section precedes the Transitions header,
`get_transitions` returns an empty transition list and empty transition ID maps. -/
theorem c10_states_line_terminates_scan_witness :
    (get_transitions docC10).1 = [] ∧ (get_transitions docC10).2.1 = [] ∧
      (get_transitions docC10).2.2.1 = [] :=
  c10_states_line_terminates_scan docC10 [] (strL "States (1):\n")
    [hashA ++ strL ", Login,\n", strL "Transitions (1):\n",
      hashC ++ strL ": (s:" ++ hashA ++ strL ", t:" ++ hashA ++ strL "): x\n"]
    (by decide) (by decide) (by simp)

/-! ## Claim C3 -/

/-- C3: on the scenario document (States declaring the `a...a` screen "Login" and
the `b...b` screen "Home", one transition from the first to the second with a
click action on a Button component), `get_screens` yields the two lines
`S1: Login` and `S2: Home`, and `get_extracted_transitions` on the
`get_transitions` output yields exactly the formatted `T1` line of the claim. -/
theorem c3_scenario :
    get_screens docC3 = strL "S1: Login\nS2: Home" ∧
    get_extracted_transitions (get_transitions docC3).1 =
      [strL "T1: (s:S1,t:S2): Action = \"click\"; Component = [Type = \"Button\", Identifier = \"login_btn\", Text = \"Login\", Description = \"\"]"] := by
  constructor
  · decide
  · decide

/-! ## Claim C5 -/

def c5text : Str := strL "see transition T3 and (transition T1)"

def c5map : List (Str × Str) := [(strL "T3", hash3), (strL "T1", hash1)]

/-- C5 counterexample: the claimed output rewrites both references, but
`get_original_transition_ids` does not produce it — every alternative of its
pattern is anchored at end of line, so the mid-line `transition T3` is left
unchanged. -/
theorem c5_counterexample :
    get_original_transition_ids c5text c5map ≠
      strL "see transition <" ++ hash3 ++ strL "> and <" ++ hash1 ++ strL ">" := by
  decide

/-- C5 amended: only the end-of-line parenthesised reference `(transition T1)` is
rewritten to the `<original-id>` tag; the mid-line prose reference `transition T3`
stays as it is. -/
theorem c5_amended :
    get_original_transition_ids c5text c5map =
      strL "see transition T3 and <" ++ hash1 ++ strL ">" := by
  decide

/-! ## Claim C6 -/

/-- C6: when the graph file does not exist, `get_screens_with_information` does
*not* report the error and return an empty result: its first statement calls
`_build_screen_id_maps`, whose unguarded `open` raises `FileNotFoundError` before
the `try/except FileNotFoundError` block is entered, so the exception propagates
to the caller (the handler at lines 111-113 is unreachable for a missing file). -/
theorem c6_missing_file_raises :
    get_screens_with_information_fs (fun _ => none) (strL "graph.txt") =
      Except.error FileErr.fileNotFound := rfl

/-! ## Claim C7 -/

/-- The early-return condition of `get_screens_with_information`: a States section
is present but contains no line matching `^[a-f0-9]{64},`. -/
def statesButNoScreens (content : Str) : Bool :=
  match statesRaw content with
  | some raw => (groupBlocks (splitNl raw)).isEmpty
  | none => false

/-- C7 counterexample: on an existing file whose States section contains no
64-hex-comma line, `get_screens_with_information` returns a bare empty list
(`return []` at line 125), not a triple. -/
theorem c7_counterexample :
    get_screens_with_information docC7 = ScreensRet.bare [] ∧
      (get_screens_with_information docC7).isTriple = false := by
  constructor
  · decide
  · decide

/-- C7 amended: for every existing input file, `get_screens_with_information`
returns the triple `(ordered_blocks, canonical_to_original, original_to_canonical)`
*except* when the States section is present but contains no line starting with a
64-hex hash followed by a comma, in which case it returns a bare empty list. -/
theorem gswi_none {content : Str} (hraw : statesRaw content = none) :
    get_screens_with_information content =
      ScreensRet.triple [] (assignFwd 'S' (allUniqueHashes content) 1)
        (assignRev 'S' (allUniqueHashes content) 1) := by
  unfold get_screens_with_information
  rw [hraw]

theorem gswi_some {content raw : Str} (hraw : statesRaw content = some raw) :
    get_screens_with_information content =
      (if (groupBlocks (splitNl raw)).isEmpty then ScreensRet.bare []
       else
         ScreensRet.triple
           (sortS blkLe ((stateBlockContents raw).filterMap (fun b =>
             if Nat.ble 64 b.length && (b.take 64).all isHexLower then
               match lookupA (assignRev 'S' (allUniqueHashes content) 1) (b.take 64) with
               | some s => some (s ++ b.drop 64)
               | none => none
             else none)))
           (assignFwd 'S' (allUniqueHashes content) 1)
           (assignRev 'S' (allUniqueHashes content) 1)) := by
  unfold get_screens_with_information
  rw [hraw]

/-- C7 amended: for every existing input file, `get_screens_with_information`
returns the triple `(ordered_blocks, canonical_to_original, original_to_canonical)`
*except* when the States section is present but contains no line starting with a
64-hex hash followed by a comma, in which case it returns a bare empty list. -/
theorem c7_amended (content : Str) :
    (statesButNoScreens content = true →
       get_screens_with_information content = ScreensRet.bare []) ∧
    (statesButNoScreens content = false →
       (get_screens_with_information content).isTriple = true) := by
  cases hraw : statesRaw content with
  | none =>
    have hbs : statesButNoScreens content = false := by
      unfold statesButNoScreens
      rw [hraw]
    constructor
    · intro hx
      rw [hbs] at hx
      cases hx
    · intro _
      rw [gswi_none hraw]
      rfl
  | some raw =>
    have hbs : statesButNoScreens content = (groupBlocks (splitNl raw)).isEmpty := by
      unfold statesButNoScreens
      rw [hraw]
    constructor
    · intro hx
      rw [hbs] at hx
      rw [gswi_some hraw, if_pos hx]
    · intro hx
      rw [hbs] at hx
      rw [gswi_some hraw, if_neg (by simp [hx])]
      rfl

/-- Witness for the amended C7 on both branches. -/
theorem c7_amended_witness :
    get_screens_with_information docC7 = ScreensRet.bare [] ∧
      (get_screens_with_information docC3).isTriple = true :=
  ⟨(c7_amended docC7).1 (by decide), (c7_amended docC3).2 (by decide)⟩

/-! ## Claim C8: idempotence of `clean_transitions` -/

theorem findSub_min {pat s : Str} {j : Nat} (h : findSub pat s = some j) :
    ∀ q, q < j → pat.isPrefixOf (s.drop q) = false := by
  induction s generalizing j with
  | nil =>
    simp only [findSub] at h
    split at h
    · cases h
      intro q hq
      omega
    · cases h
  | cons c t ih =>
    simp only [findSub] at h
    split at h
    · cases h
      intro q hq
      omega
    · next hp =>
      match hr : findSub pat t with
      | none => rw [hr] at h; cases h
      | some j0 =>
        rw [hr] at h
        cases h
        intro q hq
        match q with
        | 0 =>
          simp only [List.drop_zero]
          simp only [Bool.not_eq_true] at hp
          exact hp
        | q + 1 =>
          have hq2 : q + 1 < j0 + 1 := hq
          exact ih hr q (by omega)

theorem findSub_none_iff {pat : Str} (hne : pat ≠ []) : ∀ s : Str,
    findSub pat s = none ↔ ∀ i, pat.isPrefixOf (s.drop i) = false := by
  intro s
  induction s with
  | nil =>
    have hp : pat.isPrefixOf ([] : Str) = false := by
      cases pat with
      | nil => exact absurd rfl hne
      | cons a b => rfl
    simp [findSub, hp]
  | cons c t ih =>
    simp only [findSub]
    by_cases hp : pat.isPrefixOf (c :: t) = true
    · simp only [hp, if_true]
      constructor
      · intro hx
        cases hx
      · intro hall
        have h0 := hall 0
        rw [List.drop_zero, hp] at h0
        cases h0
    · have hp' : pat.isPrefixOf (c :: t) = false := by
        simp only [Bool.not_eq_true] at hp
        exact hp
      simp only [hp', Bool.false_eq_true, if_false, Option.map_eq_none']
      rw [ih]
      constructor
      · intro hall i
        match i with
        | 0 =>
          rw [List.drop_zero]
          exact hp'
        | i + 1 => exact hall i
      · intro hall i
        exact hall (i + 1)

theorem dropWhile_nl (X : Str) :
    X.dropWhile (fun c => c ≠ '\n') = [] ∨
      (X.dropWhile (fun c => c ≠ '\n')).head? = some '\n' := by
  induction X with
  | nil => exact Or.inl rfl
  | cons c t ih =>
    rw [List.dropWhile_cons]
    by_cases hc : c = '\n'
    · subst hc
      simp
    · rw [if_pos (by simp [hc])]
      exact ih

theorem rmWeight_nl_aux : ∀ (n : Nat) (s : Str), s.length ≤ n →
    (s = [] ∨ s.head? = some '\n') →
    (rmWeight s = [] ∨ (rmWeight s).head? = some '\n') := by
  intro n
  induction n with
  | zero =>
    intro s hlen hhead
    have hs : s = [] := List.length_eq_zero.mp (by omega)
    subst hs
    exact Or.inl rfl
  | succ n ih =>
    intro s hlen hhead
    rw [rmWeight_eq]
    split
    · exact hhead
    · rename_i j hj
      have hs7 := (findSub_spec hj).2
      have hlen7 : (strL "weight=").length = 7 := rfl
      have hd1 : (s.drop (j + 7)).length = s.length - (j + 7) := List.length_drop _ _
      have hd2 := length_dropWhile_le (fun c => c ≠ '\n') (s.drop (j + 7))
      have hR := ih ((s.drop (j + 7)).dropWhile (fun c => c ≠ '\n')) (by omega)
        (dropWhile_nl (s.drop (j + 7)))
      by_cases hi : j - ((s.take j).reverse.takeWhile isWsChar).length = 0
      · rw [hi]
        simp only [List.take_zero, List.nil_append]
        exact hR
      · right
        match s, hhead with
        | [], hhead =>
          exfalso
          simp at hs7
          omega
        | c :: t, hhead =>
          have hc : c = '\n' := by
            rcases hhead with h0 | h0
            · cases h0
            · rw [List.head?_cons, Option.some.injEq] at h0
              exact h0
          match hii : j - (((c :: t : Str).take j).reverse.takeWhile isWsChar).length, hi with
          | i0 + 1, _ =>
            rw [List.take_succ_cons, List.cons_append, List.head?_cons, hc]

theorem rmWeight_nl (s : Str) (h : s = [] ∨ s.head? = some '\n') :
    rmWeight s = [] ∨ (rmWeight s).head? = some '\n' :=
  rmWeight_nl_aux s.length s le_rfl h

theorem noOcc_append {pat A B : Str} (hne : pat ≠ [])
    (hnl : ∀ c ∈ pat, c ≠ '\n')
    (hA : ∀ q, q + pat.length ≤ A.length → pat.isPrefixOf (A.drop q) = false)
    (hB : ∀ i, pat.isPrefixOf (B.drop i) = false)
    (hBnl : B = [] ∨ B.head? = some '\n') :
    ∀ i, pat.isPrefixOf ((A ++ B).drop i) = false := by
  intro i
  by_cases hge : A.length ≤ i
  · rw [List.drop_append_eq_append_drop, List.drop_eq_nil_of_le hge, List.nil_append]
    exact hB (i - A.length)
  · push_neg at hge
    rw [List.drop_append_eq_append_drop, Nat.sub_eq_zero_of_le (le_of_lt hge), List.drop_zero]
    by_cases hfit : i + pat.length ≤ A.length
    · cases hpre : pat.isPrefixOf (A.drop i ++ B) with
      | false => rfl
      | true =>
        exfalso
        have hp := List.isPrefixOf_iff_prefix.mp hpre
        have hlenAi : pat.length ≤ (A.drop i).length := by
          rw [List.length_drop]
          omega
        have h1 : pat = (A.drop i ++ B).take pat.length := List.prefix_iff_eq_take.mp hp
        rw [List.take_append_eq_append_take, Nat.sub_eq_zero_of_le hlenAi, List.take_zero,
          List.append_nil] at h1
        have htrue : pat.isPrefixOf (A.drop i) = true :=
          List.isPrefixOf_iff_prefix.mpr (List.prefix_iff_eq_take.mpr h1)
        rw [hA i hfit] at htrue
        cases htrue
    · cases hpre : pat.isPrefixOf (A.drop i ++ B) with
      | false => rfl
      | true =>
        exfalso
        have hp := List.isPrefixOf_iff_prefix.mp hpre
        obtain ⟨r, hr⟩ := hp
        have hmlt : (A.drop i).length < pat.length := by
          rw [List.length_drop]
          omega
        have hdrop := congrArg (List.drop (A.drop i).length) hr
        rw [List.drop_append_eq_append_drop,
          Nat.sub_eq_zero_of_le (le_of_lt hmlt), List.drop_zero] at hdrop
        rw [List.drop_left] at hdrop
        -- hdrop : pat.drop |A.drop i| ++ r = B
        have hpm : pat.drop (A.drop i).length ≠ [] := by
          intro hx
          have := congrArg List.length hx
          rw [List.length_drop] at this
          simp at this
          omega
        match hpd : pat.drop (A.drop i).length, hpm with
        | x :: xs, _ =>
          rw [hpd] at hdrop
          have hx_mem : x ∈ pat := by
            have hx1 : x ∈ pat.drop (A.drop i).length := by
              rw [hpd]
              exact List.mem_cons_self _ _
            exact List.mem_of_mem_drop hx1
          have hxnl := hnl x hx_mem
          rcases hBnl with hB0 | hBh
          · rw [hB0] at hdrop
            cases hdrop
          · rw [← hdrop, List.cons_append, List.head?_cons, Option.some.injEq] at hBh
            exact hxnl hBh

theorem noOcc_rmWeight_aux : ∀ (n : Nat) (s : Str), s.length ≤ n →
    ∀ i, (strL "weight=").isPrefixOf ((rmWeight s).drop i) = false := by
  intro n
  induction n with
  | zero =>
    intro s hlen i
    have hs : s = [] := List.length_eq_zero.mp (by omega)
    subst hs
    show (strL "weight=").isPrefixOf ((rmWeight []).drop i) = false
    rw [show rmWeight ([] : Str) = [] from rfl, List.drop_nil]
    rfl
  | succ n ih =>
    intro s hlen i
    rw [rmWeight_eq]
    split
    · next hj =>
      exact ((findSub_none_iff (by decide) s).mp hj) i
    · rename_i j hj
      have hs7 := (findSub_spec hj).2
      have hlen7 : (strL "weight=").length = 7 := rfl
      have hd1 : (s.drop (j + 7)).length = s.length - (j + 7) := List.length_drop _ _
      have hd2 := length_dropWhile_le (fun c => c ≠ '\n') (s.drop (j + 7))
      refine noOcc_append (by decide) (by decide) ?_ ?_ ?_ i
      · intro q hq
        rw [List.length_take] at hq
        have hmin := Nat.min_le_left (j - ((s.take j).reverse.takeWhile isWsChar).length) s.length
        have hqj : q < j := by
          have hsub : j - ((s.take j).reverse.takeWhile isWsChar).length ≤ j := Nat.sub_le _ _
          simp only [hlen7] at hq
          omega
        cases hpre : (strL "weight=").isPrefixOf
            ((s.take (j - ((s.take j).reverse.takeWhile isWsChar).length)).drop q) with
        | false => rfl
        | true =>
          exfalso
          have hp := List.isPrefixOf_iff_prefix.mp hpre
          rw [List.drop_take] at hp
          have hp2 : (strL "weight=") <+: s.drop q := hp.trans (List.take_prefix _ _)
          have htrue := List.isPrefixOf_iff_prefix.mpr hp2
          rw [findSub_min hj q hqj] at htrue
          cases htrue
      · intro i2
        exact ih ((s.drop (j + 7)).dropWhile (fun c => c ≠ '\n')) (by omega) i2
      · exact rmWeight_nl _ (dropWhile_nl (s.drop (j + 7)))

theorem noOcc_rmWeight (s : Str) :
    ∀ i, (strL "weight=").isPrefixOf ((rmWeight s).drop i) = false :=
  noOcc_rmWeight_aux s.length s le_rfl

theorem pyStrip_sublist (t : Str) : pyStrip t <:+: t := by
  have h1 : t.dropWhile isWsChar <:+ t := List.dropWhile_suffix _
  have h0 : ((t.dropWhile isWsChar).reverse.dropWhile isWsChar) <:+
      (t.dropWhile isWsChar).reverse := List.dropWhile_suffix _
  have h3 := List.reverse_prefix.mpr h0
  rw [List.reverse_reverse] at h3
  exact List.infix_iff_prefix_suffix.mpr ⟨_, h3, h1⟩

theorem noOcc_of_infix {pat u v : Str} (hinf : u <:+: v)
    (hv : ∀ i, pat.isPrefixOf (v.drop i) = false) :
    ∀ i, pat.isPrefixOf (u.drop i) = false := by
  intro i
  cases hpre : pat.isPrefixOf (u.drop i) with
  | false => rfl
  | true =>
    exfalso
    have hp := List.isPrefixOf_iff_prefix.mp hpre
    have hinf2 : pat <:+: v :=
      (List.infix_iff_prefix_suffix.mpr ⟨_, hp, List.drop_suffix _ _⟩).trans hinf
    obtain ⟨a, b, hab⟩ := hinf2
    have htrue : pat.isPrefixOf (v.drop a.length) = true := by
      apply List.isPrefixOf_iff_prefix.mpr
      rw [← hab, List.append_assoc, List.drop_left]
      exact List.prefix_append _ _
    rw [hv a.length] at htrue
    cases htrue

theorem dropWhile_head_false (p : Char → Bool) (X : Str) :
    ∀ c, (X.dropWhile p).head? = some c → p c = false := by
  induction X with
  | nil => intro c h; cases h
  | cons x xs ih =>
    intro c h
    rw [List.dropWhile_cons] at h
    split at h
    · exact ih c h
    · next hx =>
      rw [List.head?_cons, Option.some.injEq] at h
      subst h
      simp only [Bool.not_eq_true] at hx
      exact hx

theorem dropWhile_eq_self_of_head (p : Char → Bool) (X : Str)
    (h : ∀ c, X.head? = some c → p c = false) : X.dropWhile p = X := by
  cases X with
  | nil => rfl
  | cons x xs =>
    rw [List.dropWhile_cons, if_neg]
    simp [h x rfl]

theorem pyStrip_head (t : Str) : ∀ c, (pyStrip t).head? = some c → isWsChar c = false := by
  intro c hc
  unfold pyStrip at hc
  rw [List.head?_reverse] at hc
  obtain ⟨a, ha⟩ := List.dropWhile_suffix (l := (t.dropWhile isWsChar).reverse) isWsChar
  have h2 : (t.dropWhile isWsChar).reverse.getLast? = some c := by
    rw [← ha, List.getLast?_append, hc]
    rfl
  rw [List.getLast?_reverse] at h2
  exact dropWhile_head_false isWsChar t c h2

theorem pyStrip_getLast (t : Str) : ∀ c, (pyStrip t).getLast? = some c → isWsChar c = false := by
  intro c hc
  unfold pyStrip at hc
  rw [List.getLast?_reverse] at hc
  exact dropWhile_head_false isWsChar _ c hc

theorem pyStrip_idem (t : Str) : pyStrip (pyStrip t) = pyStrip t := by
  have h1 : (pyStrip t).dropWhile isWsChar = pyStrip t :=
    dropWhile_eq_self_of_head _ _ (pyStrip_head t)
  have h2 : (pyStrip t).reverse.dropWhile isWsChar = (pyStrip t).reverse := by
    apply dropWhile_eq_self_of_head
    intro c hc
    rw [List.head?_reverse] at hc
    exact pyStrip_getLast t c hc
  show (((pyStrip t).dropWhile isWsChar).reverse.dropWhile isWsChar).reverse = pyStrip t
  rw [h1, h2, List.reverse_reverse]

theorem cleanOne_idem (s : Str) :
    pyStrip (rmWeight (pyStrip (rmWeight s))) = pyStrip (rmWeight s) := by
  have hno : ∀ i, (strL "weight=").isPrefixOf ((pyStrip (rmWeight s)).drop i) = false :=
    noOcc_of_infix (pyStrip_sublist (rmWeight s)) (noOcc_rmWeight s)
  have hfind : findSub (strL "weight=") (pyStrip (rmWeight s)) = none :=
    (findSub_none_iff (by decide) _).mpr hno
  have hrm : rmWeight (pyStrip (rmWeight s)) = pyStrip (rmWeight s) := by
    rw [rmWeight_eq (pyStrip (rmWeight s)), hfind]
  rw [hrm, pyStrip_idem]

/-- C8: `clean_transitions` is idempotent: after one pass no `weight=` occurrence
remains in any line (the removed match always extends to the end of its line, and
a maximal white-space run is consumed in front of the leftmost occurrence), so a
second pass finds nothing to remove, and stripping is idempotent. -/
theorem c8_clean_transitions_idempotent (xs : List Str) :
    clean_transitions (clean_transitions xs) = clean_transitions xs := by
  unfold clean_transitions
  rw [List.map_map]
  exact List.map_congr_left (fun a _ => cleanOne_idem a)

/-! ## Claim C4: round-trip of the bidirectional screen-id rewriter

Free text "built purely from canonical ids present in the map, adjacent only via
non-word separators" is modelled as a list of parts: id tokens and single non-word
separator characters, with no two tokens adjacent. -/

inductive TextPart where
  | tokP (t : Str)
  | sepP (c : Char)
  deriving DecidableEq

def renderText : List TextPart → Str
  | [] => []
  | .tokP t :: ps => t ++ renderText ps
  | .sepP c :: ps => c :: renderText ps

def isTokP : TextPart → Bool
  | .tokP _ => true
  | .sepP _ => false

def partOk : TextPart → Bool
  | .tokP t => !t.isEmpty && t.all isWordChar
  | .sepP c => !isWordChar c

def noAdjTok : List TextPart → Bool
  | [] => true
  | [_] => true
  | p :: q :: rest => !(isTokP p && isTokP q) && noAdjTok (q :: rest)

def replacePart (tok rep : Str) : TextPart → TextPart
  | .tokP t => if t = tok then .tokP rep else .tokP t
  | .sepP c => .sepP c

theorem isTokP_replacePart (tok rep : Str) (p : TextPart) :
    isTokP (replacePart tok rep p) = isTokP p := by
  cases p with
  | tokP t =>
    show isTokP (if t = tok then .tokP rep else .tokP t) = _
    split <;> rfl
  | sepP c => rfl

theorem hex_word {c : Char} (h : isHexLower c = true) : isWordChar c = true := by
  simp only [isHexLower, isDigitChar, isWordChar, Bool.or_eq_true, Bool.and_eq_true,
    decide_eq_true_eq, beq_iff_eq] at *
  omega

theorem digit_word {c : Char} (h : isDigitChar c = true) : isWordChar c = true := by
  simp only [isDigitChar, isWordChar, Bool.or_eq_true, Bool.and_eq_true,
    decide_eq_true_eq, beq_iff_eq] at *
  omega

theorem mkId_all_word (c : Char) (hc : isWordChar c = true) (n : Nat) :
    (mkId c n).all isWordChar = true := by
  rw [mkId, List.all_cons, hc, Bool.true_and, List.all_eq_true]
  intro x hx
  exact digit_word ((List.all_eq_true.mp (natToStr_all_digit n)) x hx)

theorem sid_ne_hash {j : Nat} {h : Str} (hne : h ≠ [])
    (hhex : h.all isHexLower = true) : mkId 'S' j ≠ h := by
  intro he
  match h, hne with
  | c :: t, _ =>
    have hc : c = 'S' := by
      rw [mkId] at he
      exact (List.cons.injEq _ _ _ _ ▸ he).1.symm
    have hch : isHexLower c = true := (List.all_eq_true.mp hhex) c (List.mem_cons_self _ _)
    rw [hc] at hch
    cases hch

theorem getLastD_mem : ∀ (l : Str), l ≠ [] → ∀ a, l.getLastD a ∈ l := by
  intro l
  induction l with
  | nil => intro h; exact absurd rfl h
  | cons x xs ih =>
    intro _ a
    cases xs with
    | nil => simp [List.getLastD]
    | cons y ys =>
      rw [List.getLastD_cons]
      exact List.mem_cons_of_mem _ (ih (by simp) x)

/-- No `\b tok \b` match can start inside a run of word characters. -/
theorem subTok_allWord (tok rep : Str) (s : Str) (hs : s.all isWordChar = true) (u : Str) :
    subTok tok rep true (s ++ u) = s ++ subTok tok rep true u := by
  induction s with
  | nil => simp
  | cons c cs ih =>
    rw [List.cons_append, subTok_cons]
    have hcw : isWordChar c = true := (List.all_eq_true.mp hs) c (List.mem_cons_self _ _)
    have hmf : tokMatchOk tok (c :: (cs ++ u)) true = false := by
      simp [tokMatchOk]
    rw [hmf]
    simp only [Bool.false_eq_true, if_false, hcw]
    have hs2 : cs.all isWordChar = true := by
      rw [List.all_cons, Bool.and_eq_true] at hs
      exact hs.2
    rw [ih hs2]
    rfl

theorem tokMatchOk_self {tok X : Str} (hne : tok ≠ [])
    (hX : X = [] ∨ ∃ d r, X = d :: r ∧ isWordChar d = false) :
    tokMatchOk tok (tok ++ X) false = true := by
  unfold tokMatchOk
  have h1 : tok.isEmpty = false := by
    cases tok with
    | nil => exact absurd rfl hne
    | cons a b => rfl
  have h2 : tok.isPrefixOf (tok ++ X) = true :=
    List.isPrefixOf_iff_prefix.mpr (List.prefix_append _ _)
  have h3 : (tok ++ X).drop tok.length = X := List.drop_left _ _
  rw [h1, h2, h3]
  rcases hX with rfl | ⟨d, r, rfl, hd⟩
  · rfl
  · simp [hd]

theorem tokMatchOk_sep {tok : Str} {c : Char} {X : Str} (htokw : tok.all isWordChar = true)
    (hc : isWordChar c = false) (prevW : Bool) : tokMatchOk tok (c :: X) prevW = false := by
  unfold tokMatchOk
  cases tok with
  | nil => rfl
  | cons t0 ts =>
    have ht0 : isWordChar t0 = true := (List.all_eq_true.mp htokw) t0 (List.mem_cons_self _ _)
    have hne : (t0 :: ts : Str).isPrefixOf (c :: X) = false := by
      show (t0 == c && ts.isPrefixOf X) = false
      have hb : (t0 == c) = false := by
        rw [beq_eq_false_iff_ne]
        intro he
        rw [he, hc] at ht0
        cases ht0
      rw [hb, Bool.false_and]
    rw [hne]
    simp

theorem tokMatchOk_token_ne {tok t X : Str} (htokw : tok.all isWordChar = true)
    (htw : t.all isWordChar = true) (htne : t ≠ []) (hne : t ≠ tok)
    (hX : X = [] ∨ ∃ d r, X = d :: r ∧ isWordChar d = false) :
    tokMatchOk tok (t ++ X) false = false := by
  by_cases hp : tok.isPrefixOf (t ++ X) = true
  · have hpre := List.isPrefixOf_iff_prefix.mp hp
    rcases Nat.lt_trichotomy tok.length t.length with hlt | heq | hgt
    · -- the character right after `tok` is a word character of `t`: boundary fails
      have hdrop : (t ++ X).drop tok.length = t.drop tok.length ++ X := by
        rw [List.drop_append_eq_append_drop, Nat.sub_eq_zero_of_le (le_of_lt hlt),
          List.drop_zero]
      match htd : t.drop tok.length with
      | [] =>
        exfalso
        have := congrArg List.length htd
        rw [List.length_drop] at this
        simp at this
        omega
      | d :: r =>
        have hd_mem : d ∈ t := List.mem_of_mem_drop (htd ▸ List.mem_cons_self d r)
        have hdw : isWordChar d = true := (List.all_eq_true.mp htw) d hd_mem
        unfold tokMatchOk
        rw [hdrop, htd]
        simp [hdw]
    · exfalso
      have h1 : tok = (t ++ X).take tok.length := List.prefix_iff_eq_take.mp hpre
      rw [List.take_append_eq_append_take, heq, Nat.sub_self, List.take_zero,
        List.append_nil, List.take_length] at h1
      exact hne h1.symm
    · exfalso
      obtain ⟨r0, hr0⟩ := hpre
      have hdrop := congrArg (List.drop t.length) hr0
      rw [List.drop_append_eq_append_drop, Nat.sub_eq_zero_of_le (le_of_lt hgt),
        List.drop_zero, List.drop_left] at hdrop
      have htd_ne : tok.drop t.length ≠ [] := by
        intro hx
        have := congrArg List.length hx
        rw [List.length_drop] at this
        simp at this
        omega
      match htd : tok.drop t.length, htd_ne with
      | d :: r, _ =>
        rw [htd] at hdrop
        have hd_mem : d ∈ tok := List.mem_of_mem_drop (htd ▸ List.mem_cons_self d r)
        have hdw : isWordChar d = true := (List.all_eq_true.mp htokw) d hd_mem
        rcases hX with hX0 | ⟨d2, r2, hX2, hd2⟩
        · rw [hX0] at hdrop
          cases hdrop
        · rw [hX2, List.cons_append] at hdrop
          have hdd : d = d2 := (List.cons.injEq _ _ _ _ ▸ hdrop).1
          rw [hdd, hd2] at hdw
          cases hdw
  · unfold tokMatchOk
    simp only [Bool.not_eq_true] at hp
    rw [hp]
    simp

theorem noAdjTok_cons (p : TextPart) (ps : List TextPart) (h : noAdjTok (p :: ps) = true) :
    noAdjTok ps = true := by
  cases ps with
  | nil => rfl
  | cons q rest =>
    have hh : noAdjTok (p :: q :: rest) =
        (!(isTokP p && isTokP q) && noAdjTok (q :: rest)) := rfl
    rw [hh, Bool.and_eq_true] at h
    exact h.2

theorem headSep_of_noAdjTok_tok {t : Str} {ps : List TextPart}
    (h : noAdjTok (.tokP t :: ps) = true) :
    ps = [] ∨ ∃ c rest, ps = .sepP c :: rest := by
  cases ps with
  | nil => exact Or.inl rfl
  | cons q rest =>
    cases q with
    | sepP c => exact Or.inr ⟨c, rest, rfl⟩
    | tokP t2 =>
      exfalso
      simp [noAdjTok, isTokP] at h

theorem renderText_shape {ps : List TextPart} (hok : ∀ p ∈ ps, partOk p = true)
    (hhead : ps = [] ∨ ∃ c rest, ps = .sepP c :: rest) :
    renderText ps = [] ∨ ∃ d r, renderText ps = d :: r ∧ isWordChar d = false := by
  rcases hhead with rfl | ⟨c, rest, rfl⟩
  · exact Or.inl rfl
  · right
    refine ⟨c, renderText rest, rfl, ?_⟩
    have := hok _ (List.mem_cons_self _ _)
    simpa [partOk] using this

/-- One `\b`-guarded substitution acts on well-formed part lists exactly by
replacing the tokens equal to the substituted id. -/
theorem subTok_render (tok rep : Str) (htokne : tok ≠ []) (htokw : tok.all isWordChar = true) :
    ∀ (ps : List TextPart), (∀ p ∈ ps, partOk p = true) → noAdjTok ps = true →
    ∀ prevW : Bool, (prevW = true → (ps = [] ∨ ∃ c rest, ps = .sepP c :: rest)) →
    subTok tok rep prevW (renderText ps) = renderText (ps.map (replacePart tok rep)) := by
  intro ps
  induction ps with
  | nil =>
    intro _ _ prevW _
    rfl
  | cons p rest ih =>
    intro hok hadj prevW hprev
    have hokr : ∀ q ∈ rest, partOk q = true := fun q hq => hok q (List.mem_cons_of_mem _ hq)
    have hadjr : noAdjTok rest = true := noAdjTok_cons p rest hadj
    cases p with
    | sepP c =>
      have hc : isWordChar c = false := by
        have := hok _ (List.mem_cons_self _ _)
        simpa [partOk] using this
      show subTok tok rep prevW (c :: renderText rest) = _
      rw [subTok_cons, tokMatchOk_sep htokw hc prevW]
      simp only [Bool.false_eq_true, if_false]
      rw [hc, ih hokr hadjr false (fun hx => absurd hx (by simp))]
      rfl
    | tokP t =>
      have hpt := hok _ (List.mem_cons_self _ _)
      have htne : t ≠ [] := by
        intro hx
        rw [hx] at hpt
        simp [partOk] at hpt
      have htw : t.all isWordChar = true := by
        simp only [partOk, Bool.and_eq_true] at hpt
        exact hpt.2
      have hheadrest := headSep_of_noAdjTok_tok hadj
      have hXshape := renderText_shape hokr hheadrest
      have hprevF : prevW = false := by
        cases prevW with
        | false => rfl
        | true =>
          rcases hprev rfl with h0 | ⟨c, r2, h1⟩
          · cases h0
          · cases h1
      subst hprevF
      by_cases het : t = tok
      · subst het
        obtain ⟨c0, tok', rfl⟩ : ∃ c0 tok', t = c0 :: tok' := by
          match t, htne with
          | c0 :: tok', _ => exact ⟨c0, tok', rfl⟩
        show subTok (c0 :: tok') rep false ((c0 :: tok') ++ renderText rest) = _
        rw [List.cons_append, subTok_cons, ← List.cons_append]
        rw [tokMatchOk_self (by simp) hXshape]
        simp only [if_true]
        rw [List.drop_left]
        have hlast : isWordChar ((c0 :: tok' : Str).getLastD 'a') = true :=
          (List.all_eq_true.mp htokw) _ (getLastD_mem _ (by simp) 'a')
        rw [hlast, ih hokr hadjr true (fun _ => hheadrest)]
        show _ = renderText (replacePart (c0 :: tok') rep (.tokP (c0 :: tok')) ::
          rest.map (replacePart (c0 :: tok') rep))
        rw [show replacePart (c0 :: tok') rep (.tokP (c0 :: tok')) = .tokP rep from by
          simp [replacePart]]
        rfl
      · obtain ⟨c0, t', rfl⟩ : ∃ c0 t', t = c0 :: t' := by
          match t, htne with
          | c0 :: t', _ => exact ⟨c0, t', rfl⟩
        show subTok tok rep false ((c0 :: t') ++ renderText rest) = _
        rw [List.cons_append, subTok_cons, ← List.cons_append]
        rw [tokMatchOk_token_ne htokw htw (by simp) het hXshape]
        simp only [Bool.false_eq_true, if_false]
        have hc0 : isWordChar c0 = true := (List.all_eq_true.mp htw) c0 (List.mem_cons_self _ _)
        have ht'w : t'.all isWordChar = true := by
          rw [List.all_cons, Bool.and_eq_true] at htw
          exact htw.2
        rw [hc0, subTok_allWord tok rep t' ht'w (renderText rest)]
        rw [ih hokr hadjr true (fun _ => hheadrest)]
        show _ = renderText (replacePart tok rep (.tokP (c0 :: t')) ::
          rest.map (replacePart tok rep))
        rw [show replacePart tok rep (.tokP (c0 :: t')) = .tokP (c0 :: t') from by
          simp [replacePart, het]]
        rfl

theorem partOk_map_replace {tok rep : Str} (hrep : rep ≠ [] ∧ rep.all isWordChar = true)
    {ps : List TextPart} (h : ∀ p ∈ ps, partOk p = true) :
    ∀ p ∈ ps.map (replacePart tok rep), partOk p = true := by
  intro p hp
  obtain ⟨q, hq, rfl⟩ := List.mem_map.mp hp
  cases q with
  | sepP c => exact h _ hq
  | tokP t =>
    show partOk (if t = tok then .tokP rep else .tokP t) = true
    split
    · show partOk (.tokP rep) = true
      simp only [partOk, Bool.and_eq_true]
      refine ⟨?_, hrep.2⟩
      match rep, hrep.1 with
      | _ :: _, _ => rfl
    · exact h _ hq

theorem noAdjTok_map {f : TextPart → TextPart} (hf : ∀ p, isTokP (f p) = isTokP p) :
    ∀ {ps : List TextPart}, noAdjTok ps = true → noAdjTok (ps.map f) = true := by
  intro ps
  induction ps with
  | nil => intro _; rfl
  | cons p rest ih =>
    intro h
    cases rest with
    | nil => rfl
    | cons q rest2 =>
      show noAdjTok (f p :: f q :: rest2.map f) = true
      have hgoal : noAdjTok (f p :: f q :: rest2.map f) =
          (!(isTokP (f p) && isTokP (f q)) && noAdjTok (f q :: rest2.map f)) := rfl
      rw [hgoal, hf p, hf q]
      have hh : noAdjTok (p :: q :: rest2) =
          (!(isTokP p && isTokP q) && noAdjTok (q :: rest2)) := rfl
      rw [hh, Bool.and_eq_true] at h
      rw [Bool.and_eq_true]
      exact ⟨h.1, ih h.2⟩

/-- Folding `\b`-guarded substitutions over a pair list acts on well-formed part
lists by folding the per-pair token replacement. -/
theorem fold_subTok_render (prs : List (Str × Str))
    (hprs : ∀ pr ∈ prs, pr.1 ≠ [] ∧ pr.1.all isWordChar = true ∧
      pr.2 ≠ [] ∧ pr.2.all isWordChar = true) :
    ∀ ps, (∀ p ∈ ps, partOk p = true) → noAdjTok ps = true →
    prs.foldl (fun t pr => subTok pr.1 pr.2 false t) (renderText ps) =
      renderText (prs.foldl (fun acc pr => acc.map (replacePart pr.1 pr.2)) ps) := by
  induction prs with
  | nil => intro ps _ _; rfl
  | cons pr prs ih =>
    intro ps hok hadj
    obtain ⟨h1, h2, h3, h4⟩ := hprs pr (List.mem_cons_self _ _)
    show prs.foldl _ (subTok pr.1 pr.2 false (renderText ps)) = _
    rw [subTok_render pr.1 pr.2 h1 h2 ps hok hadj false (fun hx => absurd hx (by simp))]
    exact ih (fun q hq => hprs q (List.mem_cons_of_mem _ hq)) _
      (partOk_map_replace ⟨h3, h4⟩ hok) (noAdjTok_map (isTokP_replacePart pr.1 pr.2) hadj)

/-- The net effect of the sequence of substitutions on one token. -/
def finalTok (prs : List (Str × Str)) (t : Str) : Str :=
  prs.foldl (fun cur pr => if cur = pr.1 then pr.2 else cur) t

theorem foldl_mapReplace : ∀ (prs : List (Str × Str)) (ps : List TextPart),
    prs.foldl (fun acc pr => acc.map (replacePart pr.1 pr.2)) ps =
      ps.map (fun p => match p with
        | .tokP t => .tokP (finalTok prs t)
        | .sepP c => .sepP c) := by
  intro prs
  induction prs with
  | nil =>
    intro ps
    show ps = _
    induction ps with
    | nil => rfl
    | cons p rest ihp =>
      show p :: rest = _
      rw [List.map_cons]
      have h1 : (match p with
          | TextPart.tokP t => TextPart.tokP (finalTok [] t)
          | TextPart.sepP c => TextPart.sepP c) = p := by cases p <;> rfl
      rw [h1, ← ihp]
  | cons pr prs ih =>
    intro ps
    show prs.foldl _ (ps.map (replacePart pr.1 pr.2)) = _
    rw [ih, List.map_map]
    apply List.map_congr_left
    intro p _
    simp only [Function.comp_apply]
    cases p with
    | sepP c => rfl
    | tokP t =>
      show (match replacePart pr.1 pr.2 (.tokP t) with
            | TextPart.tokP t2 => TextPart.tokP (finalTok prs t2)
            | TextPart.sepP c => TextPart.sepP c) =
        TextPart.tokP (finalTok (pr :: prs) t)
      have hft : finalTok (pr :: prs) t = finalTok prs (if t = pr.1 then pr.2 else t) := rfl
      have hrp : replacePart pr.1 pr.2 (.tokP t) =
          if t = pr.1 then .tokP pr.2 else .tokP t := rfl
      rw [hft, hrp]
      by_cases ht : t = pr.1
      · rw [if_pos ht, if_pos ht]
      · rw [if_neg ht, if_neg ht]

theorem finalTok_frozen : ∀ (prs : List (Str × Str)) (v : Str),
    (∀ pr ∈ prs, pr.1 ≠ v) → finalTok prs v = v := by
  intro prs
  induction prs with
  | nil => intro v _; rfl
  | cons pr prs ih =>
    intro v h
    show finalTok prs (if v = pr.1 then pr.2 else v) = v
    rw [if_neg (fun he => (h pr (List.mem_cons_self _ _)) he.symm)]
    exact ih v (fun q hq => h q (List.mem_cons_of_mem _ hq))

theorem finalTok_eq : ∀ (prs : List (Str × Str)) (t v : Str),
    (t, v) ∈ prs → (prs.map Prod.fst).Nodup → (∀ pr ∈ prs, pr.1 ≠ v) →
    finalTok prs t = v := by
  intro prs
  induction prs with
  | nil => intro t v hm _ _; cases hm
  | cons pr prs ih =>
    intro t v hm hnd hv
    obtain ⟨a, b⟩ := pr
    show finalTok prs (if t = a then b else t) = v
    rcases List.mem_cons.mp hm with heq | hm2
    · have ht : t = a := congrArg Prod.fst heq
      have hvb : v = b := congrArg Prod.snd heq
      subst ht
      subst hvb
      rw [if_pos rfl]
      exact finalTok_frozen prs v (fun q hq => hv q (List.mem_cons_of_mem _ hq))
    · have hnd' : (a :: prs.map Prod.fst).Nodup := by
        simpa using hnd
      have hna : a ∉ prs.map Prod.fst := (List.nodup_cons.mp hnd').1
      have htmem : t ∈ prs.map Prod.fst := List.mem_map.mpr ⟨(t, v), hm2, rfl⟩
      have hta : t ≠ a := fun he => hna (he ▸ htmem)
      rw [if_neg hta]
      exact ih t v hm2 (List.nodup_cons.mp hnd').2
        (fun q hq => hv q (List.mem_cons_of_mem _ hq))

theorem insertS_perm {α : Type} (le : α → α → Bool) (a : α) :
    ∀ l : List α, (insertS le a l).Perm (a :: l) := by
  intro l
  induction l with
  | nil => exact List.Perm.refl _
  | cons b t ih =>
    show (if le b a then b :: insertS le a t else a :: b :: t).Perm (a :: b :: t)
    split
    · exact (ih.cons b).trans (List.Perm.swap a b t)
    · exact List.Perm.refl _

theorem sortS_perm {α : Type} (le : α → α → Bool) (l : List α) : (sortS le l).Perm l := by
  have H : ∀ (l2 acc : List α),
      (l2.foldl (fun acc a => insertS le a acc) acc).Perm (acc ++ l2) := by
    intro l2
    induction l2 with
    | nil => intro acc; simp
    | cons a t ih =>
      intro acc
      show (t.foldl _ (insertS le a acc)).Perm _
      refine (ih (insertS le a acc)).trans ?_
      refine (List.Perm.append_right t (insertS_perm le a acc)).trans ?_
      show ((a :: acc) ++ t).Perm (acc ++ a :: t)
      exact List.perm_middle.symm
  simpa using H l []

theorem map_fst_assignRev (c : Char) : ∀ (l : List Str) (k : Nat),
    (assignRev c l k).map Prod.fst = l := by
  intro l
  induction l with
  | nil => intro k; rfl
  | cons h t ih =>
    intro k
    show h :: (assignRev c t (k + 1)).map Prod.fst = h :: t
    rw [ih]

theorem mem_map_fst_assignFwd {c : Char} : ∀ {l : List Str} {k : Nat} {x : Str},
    x ∈ (assignFwd c l k).map Prod.fst → ∃ j, k ≤ j ∧ x = mkId c j := by
  intro l
  induction l with
  | nil => intro k x h; cases h
  | cons h0 t ih =>
    intro k x hx
    rw [show assignFwd c (h0 :: t) k = (mkId c k, h0) :: assignFwd c t (k + 1) from rfl,
      List.map_cons] at hx
    rcases List.mem_cons.mp hx with h | h
    · exact ⟨k, le_refl _, h⟩
    · obtain ⟨j, hj, hx2⟩ := ih h
      exact ⟨j, by omega, hx2⟩

theorem mkId_mem_map_fst_assignFwd {c : Char} : ∀ {l : List Str} {k i : Nat},
    i < l.length → mkId c (k + i) ∈ (assignFwd c l k).map Prod.fst := by
  intro l
  induction l with
  | nil => intro k i h; simp at h
  | cons h0 t ih =>
    intro k i hi
    rw [show assignFwd c (h0 :: t) k = (mkId c k, h0) :: assignFwd c t (k + 1) from rfl,
      List.map_cons]
    match i with
    | 0 =>
      rw [Nat.add_zero]
      exact List.mem_cons_self _ _
    | i + 1 =>
      have := ih (k := k + 1) (i := i) (by simp at hi; omega)
      rw [show k + 1 + i = k + (i + 1) from by omega] at this
      exact List.mem_cons_of_mem _ this

theorem nodup_map_fst_assignFwd (c : Char) : ∀ (l : List Str) (k : Nat),
    ((assignFwd c l k).map Prod.fst).Nodup := by
  intro l
  induction l with
  | nil => intro k; exact List.nodup_nil
  | cons h0 t ih =>
    intro k
    rw [show assignFwd c (h0 :: t) k = (mkId c k, h0) :: assignFwd c t (k + 1) from rfl,
      List.map_cons, List.nodup_cons]
    refine ⟨?_, ih (k + 1)⟩
    intro hmem
    obtain ⟨j, hj, he⟩ := mem_map_fst_assignFwd hmem
    have := mkId_inj he
    omega

theorem lookupA_exists_of_mem {β : Type} : ∀ (m : List (Str × β)) (k : Str),
    k ∈ m.map Prod.fst → ∃ v, lookupA m k = some v := by
  intro m
  induction m with
  | nil => intro k h; cases h
  | cons pr t ih =>
    intro k hk
    obtain ⟨a, b⟩ := pr
    show ∃ v, (if a = k then some b else lookupA t k) = some v
    by_cases ha : a = k
    · exact ⟨b, by rw [if_pos ha]⟩
    · rw [if_neg ha]
      rcases List.mem_cons.mp hk with h | h
      · exact absurd h.symm ha
      · exact ih k h

theorem lookupA_assignFwd_get {c : Char} : ∀ {l : List Str} {k i : Nat} {h : Str},
    l.get? i = some h → lookupA (assignFwd c l k) (mkId c (k + i)) = some h := by
  intro l
  induction l with
  | nil => intro k i h hg; cases hg
  | cons h0 t ih =>
    intro k i h hg
    match i with
    | 0 =>
      rw [Nat.add_zero]
      show (if mkId c k = mkId c k then some h0 else _) = some h
      rw [if_pos rfl]
      exact hg
    | i + 1 =>
      show (if mkId c k = mkId c (k + (i + 1)) then some h0 else
        lookupA (assignFwd c t (k + 1)) (mkId c (k + (i + 1)))) = some h
      rw [if_neg (fun he => by have := mkId_inj he; omega)]
      have := ih (k := k + 1) (i := i) (h := h) hg
      rw [show k + 1 + i = k + (i + 1) from by omega] at this
      exact this

theorem all_hex_word {h : Str} (hh : h.all isHexLower = true) : h.all isWordChar = true := by
  rw [List.all_eq_true] at hh ⊢
  exact fun c hc => hex_word (hh c hc)

theorem map_fst_pairs (g : Str → Str) : ∀ keys : List Str,
    ((keys.map (fun k => (k, g k))).map Prod.fst) = keys := by
  intro keys
  induction keys with
  | nil => rfl
  | cons k ks ih =>
    rw [List.map_cons, List.map_cons, ih]

theorem fold_lookup_pairs (m : List (Str × Str)) : ∀ (keys : List Str),
    (∀ k ∈ keys, (lookupA m k).isSome = true) →
    ∀ text, keys.foldl (fun t k =>
        match lookupA m k with
        | some orig => subTok k orig false t
        | none => t) text =
      (keys.map (fun k => (k, (lookupA m k).getD []))).foldl
        (fun t pr => subTok pr.1 pr.2 false t) text := by
  intro keys
  induction keys with
  | nil => intro _ text; rfl
  | cons k ks ih =>
    intro hks text
    have hk := hks k (List.mem_cons_self _ _)
    match hlk : lookupA m k with
    | none => rw [hlk] at hk; cases hk
    | some v =>
      have hbody : (match lookupA m k with
          | some orig => subTok k orig false text
          | none => text) = subTok k v false text := by rw [hlk]
      have hp2 : (lookupA m k).getD [] = v := by rw [hlk]; rfl
      show ks.foldl _ (match lookupA m k with
          | some orig => subTok k orig false text
          | none => text) = (ks.map _).foldl _ (subTok k ((lookupA m k).getD []) false text)
      rw [hbody, hp2]
      exact ih (fun q hq => hks q (List.mem_cons_of_mem _ hq)) (subTok k v false text)

/-- C4, generalized over the processing order of the two rewriting passes (the
sorted key lists are permutations of the map keys; the substitution result does
not depend on the order, as each token matches exactly one key). -/
theorem roundtrip_general (l : List Str) (hnd : l.Nodup)
    (hhex : ∀ h ∈ l, h ≠ [] ∧ h.all isHexLower = true)
    (keys1 keys2 : List Str)
    (hk1 : keys1.Perm ((assignFwd 'S' l 1).map Prod.fst))
    (hk2 : keys2.Perm l)
    (ps : List TextPart)
    (hps : ∀ p ∈ ps, (∃ i, i < l.length ∧ p = TextPart.tokP (mkId 'S' (i + 1))) ∨
      (∃ c, p = TextPart.sepP c ∧ isWordChar c = false))
    (hadj : noAdjTok ps = true) :
    keys2.foldl (fun t k =>
        match lookupA (assignRev 'S' l 1) k with
        | some simpId => subTok k simpId false t
        | none => t)
      (keys1.foldl (fun t k =>
        match lookupA (assignFwd 'S' l 1) k with
        | some orig => subTok k orig false t
        | none => t) (renderText ps)) = renderText ps := by
  have hlk1 : ∀ k ∈ keys1, (lookupA (assignFwd 'S' l 1) k).isSome = true := by
    intro k hk
    obtain ⟨v, hv⟩ := lookupA_exists_of_mem _ _ ((hk1.mem_iff).mp hk)
    rw [hv]
    rfl
  have hlk2 : ∀ k ∈ keys2, (lookupA (assignRev 'S' l 1) k).isSome = true := by
    intro k hk
    have hmem : k ∈ (assignRev 'S' l 1).map Prod.fst := by
      rw [map_fst_assignRev]
      exact (hk2.mem_iff).mp hk
    obtain ⟨v, hv⟩ := lookupA_exists_of_mem _ _ hmem
    rw [hv]
    rfl
  -- the net effect of pass 1 on a canonical id
  have htok1 : ∀ i h, i < l.length → l.get? i = some h →
      finalTok (keys1.map (fun k => (k, (lookupA (assignFwd 'S' l 1) k).getD [])))
        (mkId 'S' (i + 1)) = h := by
    intro i h hi hget
    apply finalTok_eq
    · apply List.mem_map.mpr
      refine ⟨mkId 'S' (i + 1), ?_, ?_⟩
      · apply (hk1.mem_iff).mpr
        have := mkId_mem_map_fst_assignFwd (c := 'S') (l := l) (k := 1) (i := i) hi
        rw [show (1 : Nat) + i = i + 1 from by omega] at this
        exact this
      · have hlook : lookupA (assignFwd 'S' l 1) (mkId 'S' (1 + i)) = some h :=
          lookupA_assignFwd_get hget
        rw [show (1 : Nat) + i = i + 1 from by omega] at hlook
        show (mkId 'S' (i + 1), (lookupA (assignFwd 'S' l 1) (mkId 'S' (i + 1))).getD []) = _
        rw [hlook]
        rfl
    · rw [map_fst_pairs]
      exact (hk1.nodup_iff).mpr (nodup_map_fst_assignFwd 'S' l 1)
    · intro pr hpr
      obtain ⟨k, hk, rfl⟩ := List.mem_map.mp hpr
      obtain ⟨j, _, rfl⟩ := mem_map_fst_assignFwd ((hk1.mem_iff).mp hk)
      have hmem_h : h ∈ l := List.get?_mem hget
      exact sid_ne_hash (hhex h hmem_h).1 (hhex h hmem_h).2
  -- the net effect of pass 2 on an original id
  have htok2 : ∀ i h, i < l.length → l.get? i = some h →
      finalTok (keys2.map (fun k => (k, (lookupA (assignRev 'S' l 1) k).getD []))) h =
        mkId 'S' (i + 1) := by
    intro i h hi hget
    apply finalTok_eq
    · apply List.mem_map.mpr
      refine ⟨h, (hk2.mem_iff).mpr (List.get?_mem hget), ?_⟩
      · have hlook : lookupA (assignRev 'S' l 1) h = some (mkId 'S' (1 + i)) :=
          lookupA_assignRev_get hnd hget
        rw [show (1 : Nat) + i = i + 1 from by omega] at hlook
        show (h, (lookupA (assignRev 'S' l 1) h).getD []) = _
        rw [hlook]
        rfl
    · rw [map_fst_pairs]
      exact (hk2.nodup_iff).mpr hnd
    · intro pr hpr
      obtain ⟨k, hk, rfl⟩ := List.mem_map.mp hpr
      have hkl : k ∈ l := (hk2.mem_iff).mp hk
      exact fun he => sid_ne_hash (hhex k hkl).1 (hhex k hkl).2 he.symm
  have hok : ∀ p ∈ ps, partOk p = true := by
    intro p hp
    rcases hps p hp with ⟨i, hi, rfl⟩ | ⟨c, rfl, hc⟩
    · show partOk (.tokP (mkId 'S' (i + 1))) = true
      simp only [partOk, Bool.and_eq_true]
      exact ⟨rfl, mkId_all_word 'S' (by decide) _⟩
    · simp [partOk, hc]
  have hprs1 : ∀ pr ∈ keys1.map (fun k => (k, (lookupA (assignFwd 'S' l 1) k).getD [])),
      pr.1 ≠ [] ∧ pr.1.all isWordChar = true ∧ pr.2 ≠ [] ∧ pr.2.all isWordChar = true := by
    intro pr hpr
    obtain ⟨k, hk, rfl⟩ := List.mem_map.mp hpr
    have hmem : k ∈ (assignFwd 'S' l 1).map Prod.fst := (hk1.mem_iff).mp hk
    obtain ⟨j, hj, rfl⟩ := mem_map_fst_assignFwd hmem
    obtain ⟨v, hv⟩ := lookupA_exists_of_mem _ _ hmem
    obtain ⟨hvl, -⟩ := lookupA_assignFwd_shape hv
    obtain ⟨hvne, hvhex⟩ := hhex v hvl
    refine ⟨by simp [mkId], mkId_all_word 'S' (by decide) j, ?_, ?_⟩
    · show (lookupA (assignFwd 'S' l 1) (mkId 'S' j)).getD [] ≠ []
      rw [hv]
      exact hvne
    · show ((lookupA (assignFwd 'S' l 1) (mkId 'S' j)).getD []).all isWordChar = true
      rw [hv]
      exact all_hex_word hvhex
  have hprs2 : ∀ pr ∈ keys2.map (fun k => (k, (lookupA (assignRev 'S' l 1) k).getD [])),
      pr.1 ≠ [] ∧ pr.1.all isWordChar = true ∧ pr.2 ≠ [] ∧ pr.2.all isWordChar = true := by
    intro pr hpr
    obtain ⟨k, hk, rfl⟩ := List.mem_map.mp hpr
    have hkl : k ∈ l := (hk2.mem_iff).mp hk
    have hmem : k ∈ (assignRev 'S' l 1).map Prod.fst := by
      rw [map_fst_assignRev]
      exact hkl
    obtain ⟨v, hv⟩ := lookupA_exists_of_mem _ _ hmem
    obtain ⟨-, j, -, rfl⟩ := lookupA_assignRev_shape hv
    refine ⟨(hhex k hkl).1, all_hex_word (hhex k hkl).2, ?_, ?_⟩
    · show (lookupA (assignRev 'S' l 1) k).getD [] ≠ []
      rw [hv]
      simp [mkId]
    · show ((lookupA (assignRev 'S' l 1) k).getD []).all isWordChar = true
      rw [hv]
      exact mkId_all_word 'S' (by decide) j
  rw [fold_lookup_pairs (assignFwd 'S' l 1) keys1 hlk1 (renderText ps)]
  rw [fold_subTok_render _ hprs1 ps hok hadj]
  rw [foldl_mapReplace]
  have hps1 : ∀ p ∈ ps.map (fun p => match p with
      | TextPart.tokP t =>
        TextPart.tokP (finalTok
          (keys1.map (fun k => (k, (lookupA (assignFwd 'S' l 1) k).getD []))) t)
      | TextPart.sepP c => TextPart.sepP c),
      (∃ i h, i < l.length ∧ l.get? i = some h ∧ p = TextPart.tokP h) ∨
      (∃ c, p = TextPart.sepP c ∧ isWordChar c = false) := by
    intro p hp
    obtain ⟨q, hq, rfl⟩ := List.mem_map.mp hp
    rcases hps q hq with ⟨i, hi, rfl⟩ | ⟨c, rfl, hc⟩
    · left
      obtain ⟨h, hget⟩ : ∃ h, l.get? i = some h :=
        ⟨l.get ⟨i, hi⟩, by rw [List.get?_eq_get hi]⟩
      refine ⟨i, h, hi, hget, ?_⟩
      show TextPart.tokP (finalTok _ (mkId 'S' (i + 1))) = TextPart.tokP h
      rw [htok1 i h hi hget]
    · right
      exact ⟨c, rfl, hc⟩
  have hok1 : ∀ p ∈ ps.map (fun p => match p with
      | TextPart.tokP t =>
        TextPart.tokP (finalTok
          (keys1.map (fun k => (k, (lookupA (assignFwd 'S' l 1) k).getD []))) t)
      | TextPart.sepP c => TextPart.sepP c), partOk p = true := by
    intro p hp
    rcases hps1 p hp with ⟨i, h, hi, hget, rfl⟩ | ⟨c, rfl, hc⟩
    · obtain ⟨hne, hhx⟩ := hhex h (List.get?_mem hget)
      simp only [partOk, Bool.and_eq_true]
      refine ⟨?_, all_hex_word hhx⟩
      match h, hne with
      | _ :: _, _ => rfl
    · simp [partOk, hc]
  have hadj1 : noAdjTok (ps.map (fun p => match p with
      | TextPart.tokP t =>
        TextPart.tokP (finalTok
          (keys1.map (fun k => (k, (lookupA (assignFwd 'S' l 1) k).getD []))) t)
      | TextPart.sepP c => TextPart.sepP c)) = true :=
    noAdjTok_map (fun p => by cases p <;> rfl) hadj
  rw [fold_lookup_pairs (assignRev 'S' l 1) keys2 hlk2]
  rw [fold_subTok_render _ hprs2 _ hok1 hadj1]
  rw [foldl_mapReplace]
  rw [List.map_map]
  have hpoint : ∀ p ∈ ps, ((fun p => match p with
      | TextPart.tokP t =>
        TextPart.tokP (finalTok
          (keys2.map (fun k => (k, (lookupA (assignRev 'S' l 1) k).getD []))) t)
      | TextPart.sepP c => TextPart.sepP c) ∘ (fun p => match p with
      | TextPart.tokP t =>
        TextPart.tokP (finalTok
          (keys1.map (fun k => (k, (lookupA (assignFwd 'S' l 1) k).getD []))) t)
      | TextPart.sepP c => TextPart.sepP c)) p = (fun a => a) p := by
    intro p hp
    rcases hps p hp with ⟨i, hi, rfl⟩ | ⟨c, rfl, hc⟩
    · obtain ⟨h, hget⟩ : ∃ h, l.get? i = some h :=
        ⟨l.get ⟨i, hi⟩, by rw [List.get?_eq_get hi]⟩
      show TextPart.tokP (finalTok _ (finalTok _ (mkId 'S' (i + 1)))) = _
      rw [htok1 i h hi hget, htok2 i h hi hget]
    · rfl
  rw [List.map_congr_left hpoint, List.map_id']

/-- C4: for every text built purely from canonical screen ids present in the map,
separated by non-word characters, rewriting canonical ids to original hashes and
back recovers the text exactly: each `S<n>` is replaced as a whole token (so `S10`
is never partially consumed by the `S1` substitution, whatever the processing
order), and the hash-to-canonical direction inverts it. -/
theorem c4_screen_id_roundtrip (l : List Str) (hnd : l.Nodup)
    (hhex : ∀ h ∈ l, h ≠ [] ∧ h.all isHexLower = true)
    (ps : List TextPart)
    (hps : ∀ p ∈ ps, (∃ i, i < l.length ∧ p = TextPart.tokP (mkId 'S' (i + 1))) ∨
      (∃ c, p = TextPart.sepP c ∧ isWordChar c = false))
    (hadj : noAdjTok ps = true) :
    replace_original_screen_ids_with_simplified_ids
      (replace_simplified_screen_ids_with_original_ids (renderText ps) (assignFwd 'S' l 1))
      (assignRev 'S' l 1) = renderText ps := by
  show (sortS lenLexGe ((assignRev 'S' l 1).map Prod.fst)).foldl _
    ((sortS (fun a b => Nat.ble (strVal (b.drop 1)) (strVal (a.drop 1)))
      ((assignFwd 'S' l 1).map Prod.fst)).foldl _ (renderText ps)) = renderText ps
  exact roundtrip_general l hnd hhex _ _ (sortS_perm _ _)
    ((sortS_perm _ _).trans (by rw [map_fst_assignRev])) ps hps hadj

/-- Ten distinct 64-hex screen hashes, so both `S1` and `S10` are ids in the map. -/
def lW : List Str := (List.range 10).map (fun i => List.replicate 64 (digitChar i))

/-- A text with both `S10` and `S1` as whole tokens, separated by non-word
characters. -/
def psW : List TextPart := [TextPart.tokP (mkId 'S' 10), TextPart.sepP ' ',
  TextPart.tokP (mkId 'S' 1), TextPart.sepP '!']

/-- Witness: the round trip on the `S10 S1!` fixture over a ten-screen map. -/
theorem c4_screen_id_roundtrip_witness :
    replace_original_screen_ids_with_simplified_ids
      (replace_simplified_screen_ids_with_original_ids (renderText psW) (assignFwd 'S' lW 1))
      (assignRev 'S' lW 1) = renderText psW :=
  c4_screen_id_roundtrip lW (by decide) (by decide) psW
    (by
      intro p hp
      fin_cases hp
      · exact Or.inl ⟨9, by decide, rfl⟩
      · exact Or.inr ⟨' ', rfl, by decide⟩
      · exact Or.inl ⟨0, by decide, rfl⟩
      · exact Or.inr ⟨'!', rfl, by decide⟩)
    (by decide)
